import Mathlib

/-!
# Verification of the `vscode-web-fs` virtual filesystem and search engine

This file gives a shallow embedding of the core of the `vscode-web-fs`
repository — the in-memory backend (`memFSProvider.ts`, backed by
lightning-fs), the native-handle backend (the `NativeFS` class of the
injected provider, `nativeFS.ts`), the thin facade providers
(`fileSystemProvider.ts` / `nativeFSProvider.ts`), the debounced
notification batcher (`_fireSoon`), and the generic search engine
(`util.ts`) — together with proofs and refutations of the specification
claims about them.

Modelling conventions:
* Virtual paths are lists of path components (`List String`); the source's
  slash-separated strings, `path.posix.dirname` and `path.join` correspond
  to component lists, `List.dropLast` and `· ++ [name]`.
* Byte payloads are `List Nat` (the native backend really does marshal file
  contents as arrays of small integers).
* Asynchronous operations are modelled as pure functions returning
  `Except FsErrorKind`; an operation that throws corresponds to `.error`.
  For every flow analysed below the concrete backends perform no state
  mutation before throwing, so returning no tree on `.error` is exact.
* Concurrent fan-out (`Promise.all` over directory entries) is modelled as
  sequential traversal in enumeration order; cooperative cancellation
  checks are modelled by an oracle `tok : Nat → Bool` queried with a
  running check counter.
-/

/-- The shared error taxonomy of the facade (vscode `FileSystemError` kinds,
plus the native handle errors `TypeMismatchError` / `NotAllowedError` and the
lightning-fs `ENOTDIR`). -/
inductive FsErrorKind where
  | NotFound
  | AlreadyExists
  | IsADirectory
  | TypeMismatch
  | NotADirectory
  | Unavailable
  | Unknown
deriving DecidableEq, Repr

/-- `vscode.FileChangeType`. -/
inductive FileChangeType where
  | Changed
  | Created
  | Deleted
deriving DecidableEq, Repr

/-- `vscode.FileType` (the subset the code distinguishes). -/
inductive VsFileType where
  | file
  | directory
  | unknown
deriving DecidableEq, Repr

/-- A change event: type plus the path of the changed entry
(`vscode.FileChangeEvent`, with the uri replaced by its component path). -/
abbrev ChangeEvent := FileChangeType × List String

/-- A filesystem tree: the state of one backend's store.  Directory children
are an association list keyed by entry name (names are unique for every tree
reachable by the operations below). -/
inductive FsEntry where
  | file (content : List Nat)
  | dir (children : List (String × FsEntry))
deriving Repr

/-- Look up a child by name (first match). -/
def lookupChild (ch : List (String × FsEntry)) (n : String) : Option FsEntry :=
  ch.lookup n

/-- Replace the child named `n` (or append it if absent). -/
def setChild : List (String × FsEntry) → String → FsEntry → List (String × FsEntry)
  | [], n, e => [(n, e)]
  | (k, v) :: rest, n, e =>
    if k = n then (k, e) :: rest else (k, v) :: setChild rest n e

/-- Remove the child named `n` (first occurrence). -/
def removeChild : List (String × FsEntry) → String → List (String × FsEntry)
  | [], _ => []
  | (k, v) :: rest, n => if k = n then rest else (k, v) :: removeChild rest n

/-- Resolve a component path in a tree. -/
def resolve : FsEntry → List String → Option FsEntry
  | t, [] => some t
  | .file _, _ :: _ => none
  | .dir ch, c :: rest => (lookupChild ch c).bind (fun e => resolve e rest)

/-- Is the resolved entry a directory? -/
def isDirEntry : Option FsEntry → Bool
  | some (.dir _) => true
  | _ => false

namespace MemFS

/-- lightning-fs `pfs.writeFile`: requires the parent to exist and be a
directory (`ENOENT`/`ENOTDIR` otherwise) and the target to not be a
directory (`EISDIR`); creates or truncates the target file. -/
def pfsWriteFile : FsEntry → List String → List Nat → Except FsErrorKind FsEntry
  | _, [], _ => .error .IsADirectory
  | .file _, _ :: _, _ => .error .NotADirectory
  | .dir ch, [n], data =>
    match lookupChild ch n with
    | some (.dir _) => .error .IsADirectory
    | _ => .ok (.dir (setChild ch n (.file data)))
  | .dir ch, c :: c2 :: rest, data =>
    match lookupChild ch c with
    | some sub => (pfsWriteFile sub (c2 :: rest) data).map (fun sub' => .dir (setChild ch c sub'))
    | none => .error .NotFound

/-- lightning-fs `pfs.mkdir`: requires the parent to exist and be a
directory, and the target to be absent (`EEXIST` otherwise). -/
def pfsMkdir : FsEntry → List String → Except FsErrorKind FsEntry
  | _, [] => .error .AlreadyExists
  | .file _, _ :: _ => .error .NotADirectory
  | .dir ch, [n] =>
    match lookupChild ch n with
    | some _ => .error .AlreadyExists
    | none => .ok (.dir (setChild ch n (.dir [])))
  | .dir ch, c :: c2 :: rest =>
    match lookupChild ch c with
    | some sub => (pfsMkdir sub (c2 :: rest)).map (fun sub' => .dir (setChild ch c sub'))
    | none => .error .NotFound

/-- lightning-fs `pfs.unlink`: removes a file entry. -/
def pfsUnlink : FsEntry → List String → Except FsErrorKind FsEntry
  | _, [] => .error .IsADirectory
  | .file _, _ :: _ => .error .NotADirectory
  | .dir ch, [n] =>
    match lookupChild ch n with
    | some (.dir _) => .error .IsADirectory
    | some (.file _) => .ok (.dir (removeChild ch n))
    | none => .error .NotFound
  | .dir ch, c :: c2 :: rest =>
    match lookupChild ch c with
    | some sub => (pfsUnlink sub (c2 :: rest)).map (fun sub' => .dir (setChild ch c sub'))
    | none => .error .NotFound

/-- `MemFS.exists`: `pfs.stat` wrapped so that any failure yields `false`. -/
def memExists (t : FsEntry) (p : List String) : Bool :=
  (resolve t p).isSome

/-- `MemFS.writeFile` (`memFSProvider.ts`).  The source first computes
`stat` (absorbing its failure into `undefined`), then applies the four
checks in order, then calls `pfs.writeFile` and fires the change events.
The fired events are returned in `_fireSoon` call order. -/
def writeFile (t : FsEntry) (p : List String) (data : List Nat)
    (create overwrite : Bool) : Except FsErrorKind (FsEntry × List ChangeEvent) :=
  let stat := resolve t p
  match stat with
  | some (.dir _) => .error .IsADirectory
  | some (.file _) =>
    if create && !overwrite then .error .AlreadyExists
    else
      (pfsWriteFile t p data).map (fun t' => (t', [(.Changed, p)]))
  | none =>
    if !create then .error .NotFound
    else
      (pfsWriteFile t p data).map
        (fun t' => (t', [(.Changed, p.dropLast), (.Created, p), (.Changed, p)]))

/-- The recursion of `MemFS.mkdirp`, made structural with a fuel argument.
`mkdirp` recurses on `path.posix.dirname`, i.e. on `dropLast`; fuel
`p.length` always suffices because the root `[]` exists in every tree, so
the `.Unknown` fuel sentinel is unreachable from `mkdirp` below. -/
def mkdirpGo : Nat → FsEntry → List String → Except FsErrorKind (FsEntry × List ChangeEvent)
  | fuel, t, p =>
    if memExists t p then .ok (t, [])
    else
      match fuel with
      | 0 => .error .Unknown
      | fuel + 1 => do
        let (t1, ev1) ← mkdirpGo fuel t p.dropLast
        let t2 ← pfsMkdir t1 p
        -- the source fires (Changed dirname, Created p); the `Created`
        -- event's uri in the source is built by interpolating a Uri object
        -- and is malformed ("memfs:memfs:/…"); no claim depends on it and
        -- it is modelled here as the intended path `p`.
        .ok (t2, ev1 ++ [(.Changed, p.dropLast), (.Created, p)])

/-- `MemFS.mkdirp`. -/
def mkdirp (t : FsEntry) (p : List String) : Except FsErrorKind (FsEntry × List ChangeEvent) :=
  mkdirpGo p.length t p

/-- `MemFS.createDirectory`: `mkdirp` wrapped in a try/catch that rethrows. -/
def createDirectory (t : FsEntry) (p : List String) :
    Except FsErrorKind (FsEntry × List ChangeEvent) :=
  mkdirp t p

/-- `MemFS.readFile`: any underlying failure (missing entry, `EISDIR`, …) is
caught and rethrown as `FileNotFound`. -/
def readFile (t : FsEntry) (p : List String) : Except FsErrorKind (List Nat) :=
  match resolve t p with
  | some (.file d) => .ok d
  | _ => .error .NotFound

/-- Deletion events of `MemFS.unlink` for a file path. -/
def unlinkEvents (p : List String) : List ChangeEvent :=
  [(.Changed, p.dropLast), (.Deleted, p)]

mutual
/-- The events fired while `MemFS.rmdir`/`MemFS.unlink` delete the entry at
`p`: children first (in directory order), then the entry itself. -/
def delEvents : FsEntry → List String → List ChangeEvent
  | .file _, p => [(.Changed, p.dropLast), (.Deleted, p)]
  | .dir ch, p => delEventsList ch p ++ [(.Changed, p.dropLast), (.Deleted, p)]

def delEventsList : List (String × FsEntry) → List String → List ChangeEvent
  | [], _ => []
  | (n, e) :: rest, p => delEvents e (p ++ [n]) ++ delEventsList rest p
end

/-- Remove the entry at `p` from the tree (the combined effect of the
`unlink`/`rmdir` recursion of `MemFS.delete`). -/
def removeAt : FsEntry → List String → Except FsErrorKind FsEntry
  | _, [] => .error .Unknown
  | .file _, _ :: _ => .error .NotADirectory
  | .dir ch, [n] =>
    match lookupChild ch n with
    | some _ => .ok (.dir (removeChild ch n))
    | none => .error .NotFound
  | .dir ch, c :: c2 :: rest =>
    match lookupChild ch c with
    | some sub => (removeAt sub (c2 :: rest)).map (fun sub' => .dir (setChild ch c sub'))
    | none => .error .NotFound

/-- `MemFS.delete(uri)` (no options): stat, then `rmdir` (recursive, leaves
first) for directories or `unlink` for files; `FileNotFound` if absent. -/
def delete (t : FsEntry) (p : List String) :
    Except FsErrorKind (FsEntry × List ChangeEvent) :=
  match resolve t p with
  | none => .error .NotFound
  | some e => (removeAt t p).map (fun t' => (t', delEvents e p))

/-- `MemFS.rename`: stat the target; `FileExists` when it exists and
`overwrite` is false; otherwise `mkdirp` (the target itself when it is a
directory, else its parent), copy via `readFile` + `writeFile`, delete the
source.  The fired events are those of the constituent operations (the
source's final `_fireSoon` is commented out). -/
def rename (t : FsEntry) (oldP newP : List String) (overwrite : Bool) :
    Except FsErrorKind (FsEntry × List ChangeEvent) :=
  let newStat := resolve t newP
  if !overwrite && newStat.isSome then .error .AlreadyExists
  else do
    let (t1, ev1) ←
      if isDirEntry newStat then mkdirp t newP else mkdirp t newP.dropLast
    let data ← readFile t1 oldP
    let (t2, ev2) ← writeFile t1 newP data true overwrite
    let (t3, ev3) ← delete t2 oldP
    .ok (t3, ev1 ++ ev2 ++ ev3)

end MemFS

namespace NativeFS

/-- The children of a native directory handle. -/
abbrev NativeDir := List (String × FsEntry)

/-- The drill-down plus final-step logic of the injected `NativeFS.writeFile`
(`nativeFS.ts`): intermediate components via
`getDirectoryHandle(c, {create: options.create})`, then an existence check
by name over `directoryHandle.values()`, the two option checks, and
`getFileHandle(name, {create: options.create})` (which throws
`TypeMismatchError` on a directory).  Returns the updated children and
whether the entry existed before.  The `[]` case cannot arise from a
well-formed uri (the source would index past the path array there) and is
mapped to `.Unknown`. -/
def writeFileGo : NativeDir → List String → List Nat → Bool → Bool →
    Except FsErrorKind (NativeDir × Bool)
  | _, [], _, _, _ => .error .Unknown
  | ch, [n], data, create, overwrite =>
    let exists_ := (lookupChild ch n).isSome
    if !exists_ && !create then .error .NotFound
    else if exists_ && create && !overwrite then .error .AlreadyExists
    else
      match lookupChild ch n with
      | some (.dir _) => .error .TypeMismatch
      | some (.file _) => .ok (setChild ch n (.file data), true)
      | none =>
        if create then .ok (setChild ch n (.file data), false)
        else .error .NotFound
  | ch, c :: c2 :: rest, data, create, overwrite =>
    match lookupChild ch c with
    | some (.dir sub) =>
      (writeFileGo sub (c2 :: rest) data create overwrite).map
        (fun r => (setChild ch c (.dir r.1), r.2))
    | some (.file _) => .error .TypeMismatch
    | none =>
      if create then
        (writeFileGo [] (c2 :: rest) data create overwrite).map
          (fun r => (setChild ch c (.dir r.1), r.2))
      else .error .NotFound

/-- The injected `NativeFS.writeFile`, returning the updated root children
and the `{events}` payload: `Created p` when the entry did not exist, then
`Changed p`; never an event for the parent. -/
def writeFile (ch : NativeDir) (p : List String) (data : List Nat)
    (create overwrite : Bool) : Except FsErrorKind (NativeDir × List ChangeEvent) :=
  (writeFileGo ch p data create overwrite).map
    (fun r => (r.1, (if r.2 then [] else [(.Created, p)]) ++ [(.Changed, p)]))

/-- The injected `NativeFS.readFile`: drill down with
`getDirectoryHandle(c)` (no create), then `getFileHandle(name)`. -/
def readFile : NativeDir → List String → Except FsErrorKind (List Nat)
  | _, [] => .error .Unknown
  | ch, [n] =>
    match lookupChild ch n with
    | some (.file d) => .ok d
    | some (.dir _) => .error .TypeMismatch
    | none => .error .NotFound
  | ch, c :: c2 :: rest =>
    match lookupChild ch c with
    | some (.dir sub) => readFile sub (c2 :: rest)
    | some (.file _) => .error .TypeMismatch
    | none => .error .NotFound

/-- The drill-down and `removeEntry(name, {recursive})` of the injected
`NativeFS.delete`.  A non-empty directory with `recursive` unset raises
`InvalidModificationError` (mapped to `.Unknown`). -/
def deleteGo : NativeDir → List String → Bool → Except FsErrorKind NativeDir
  | _, [], _ => .error .Unknown
  | ch, [n], recursive =>
    match lookupChild ch n with
    | some (.dir sub) =>
      if !recursive && !sub.isEmpty then .error .Unknown
      else .ok (removeChild ch n)
    | some (.file _) => .ok (removeChild ch n)
    | none => .error .NotFound
  | ch, c :: c2 :: rest, recursive =>
    match lookupChild ch c with
    | some (.dir sub) => (deleteGo sub (c2 :: rest) recursive).map (fun sub' => setChild ch c (.dir sub'))
    | some (.file _) => .error .TypeMismatch
    | none => .error .NotFound

/-- The injected `NativeFS.delete`, with its `{events}` payload:
`Changed dirname(p)` then `Deleted p`. -/
def delete (ch : NativeDir) (p : List String) (recursive : Bool) :
    Except FsErrorKind (NativeDir × List ChangeEvent) :=
  (deleteGo ch p recursive).map
    (fun ch' => (ch', [(.Changed, p.dropLast), (.Deleted, p)]))

/-- The loop of the injected `NativeFS.createDirectory`: every component via
`getDirectoryHandle(c, {create: true})` (which throws `TypeMismatchError`
when the entry is a file). -/
def createDirectoryGo : NativeDir → List String → Except FsErrorKind NativeDir
  | ch, [] => .ok ch
  | ch, c :: rest =>
    match lookupChild ch c with
    | some (.dir sub) => (createDirectoryGo sub rest).map (fun sub' => setChild ch c (.dir sub'))
    | some (.file _) => .error .TypeMismatch
    | none => (createDirectoryGo [] rest).map (fun sub' => setChild ch c (.dir sub'))

/-- The injected `NativeFS.createDirectory`, with its `{events}` payload:
`Changed dirname(p)` then `Created p` (returned on every successful call,
including calls where every directory already existed). -/
def createDirectory (ch : NativeDir) (p : List String) :
    Except FsErrorKind (NativeDir × List ChangeEvent) :=
  (createDirectoryGo ch p).map
    (fun ch' => (ch', [(.Changed, p.dropLast), (.Created, p)]))

/-- The injected `NativeFS.rename`: copy via `readFile` + `writeFile` with
`{create: true, overwrite: options.overwrite}`, then recursive delete of the
source; its own `{events}` payload is `Deleted old`, `Created new` (the
events of the constituent calls are discarded by the source). -/
def rename (ch : NativeDir) (oldP newP : List String) (overwrite : Bool) :
    Except FsErrorKind (NativeDir × List ChangeEvent) := do
  let data ← readFile ch oldP
  let (ch1, _) ← writeFile ch newP data true overwrite
  let (ch2, _) ← delete ch1 oldP true
  .ok (ch2, [(.Deleted, oldP), (.Created, newP)])

end NativeFS

namespace NativeFS

/-- The outcome of a `queryPermission` / `requestPermission` round for a
handle: the oracle answers whether each step returns `"granted"` for the
requested mode. -/
structure PermOracle where
  query : String → Bool
  request : String → Bool

/-- `verifyPermission` (`nativeFS.ts`): `false` for a missing handle,
otherwise granted iff `queryPermission` or (after an interactive prompt)
`requestPermission` answers `"granted"`. -/
def verifyPermission (perm : PermOracle) (handle : Option FsEntry) (mode : String) : Bool :=
  match handle with
  | none => false
  | some _ => perm.query mode || perm.request mode

/-- JavaScript `path.replace(/\/+$/, "")` on a character list. -/
def stripTrailingSlashes (s : List Char) : List Char :=
  (s.reverse.dropWhile (fun c => c = '/')).reverse

/-- JavaScript `String.prototype.split("/")` on a character list. -/
def jsSplit : List Char → List String
  | [] => [""]
  | c :: rest =>
    match jsSplit rest with
    | s :: ss => if c = '/' then "" :: s :: ss else (String.mk [c] ++ s) :: ss
    | [] => [String.mk [c]]

/-- `NativeFS.helper` (`nativeFS.ts`): strip trailing slashes, split on
`"/"`, rebuild the root key from components 1 and 2, look the handle up in
`directoryHandleMap`, call `verifyPermission` — whose boolean result the
source discards — and return the handle (possibly `undefined`) together
with the remaining components.  A missing component is JavaScript
`undefined`, which string-concatenates as `"undefined"`. -/
def helper (handleMap : List (String × FsEntry)) (perm : PermOracle)
    (path : String) (mode : String) : Option FsEntry × List String :=
  let pathArr := jsSplit (stripTrailingSlashes path.toList)
  let rootDir := "/" ++ (pathArr.getD 1 "undefined") ++ "/" ++ (pathArr.getD 2 "undefined") ++ "/"
  let directoryHandle := handleMap.lookup rootDir
  let _granted := verifyPermission perm directoryHandle mode
  (directoryHandle, pathArr.drop 3)

end NativeFS

/-- A `vscode.FileStat`. -/
structure VsFileStat where
  type : VsFileType
  ctime : Nat
  mtime : Nat
  size : Nat
deriving DecidableEq, Repr

/-- The outcome of `vscode.commands.executeCommand`: it may reject
(`.error`), or resolve with no result (`.ok none`, JavaScript `undefined`),
or resolve with a value. -/
abbrev CmdOutcome (α : Type) := Except Unit (Option α)

/-- `NativeFS.stat` of the facade provider (`nativeFSProvider.ts`): run the
`nativeFS.stat` command; a missing result throws `FileNotFound`, and the
surrounding try/catch rethrows every failure — including a permission
denial surfacing from the backend — as `FileNotFound`. -/
def natStatFacade (cmd : CmdOutcome VsFileStat) : Except FsErrorKind VsFileStat :=
  match cmd with
  | .ok (some s) => .ok s
  | .ok none => .error .NotFound
  | .error _ => .error .NotFound

/-- The `{events}` payload of a backend command as seen by the facade
providers: `none` models a command that resolved with no result object
(JavaScript `undefined`). -/
structure CmdResult where
  events : List ChangeEvent
deriving DecidableEq, Repr

/-- `Provider.writeFile` / `NativeFS.writeFile` result processing
(`fileSystemProvider.ts`, `nativeFSProvider.ts`):
`(await executeCommand(...)) || {events: []}` destructured to `events`,
each of which is forwarded to `_fireSoon`; the operation itself always
resolves.  Returns the events fired. -/
def facadeWriteFile (res : Option CmdResult) : Except FsErrorKind (List ChangeEvent) :=
  .ok (res.getD ⟨[]⟩).events

/-- `Provider.rename` / `NativeFS.rename` result processing. -/
def facadeRename (res : Option CmdResult) : Except FsErrorKind (List ChangeEvent) :=
  .ok (res.getD ⟨[]⟩).events

/-- `Provider.delete` / `NativeFS.delete` result processing. -/
def facadeDelete (res : Option CmdResult) : Except FsErrorKind (List ChangeEvent) :=
  .ok (res.getD ⟨[]⟩).events

/-- `Provider.createDirectory` / `NativeFS.createDirectory` result
processing. -/
def facadeCreateDirectory (res : Option CmdResult) : Except FsErrorKind (List ChangeEvent) :=
  .ok (res.getD ⟨[]⟩).events

namespace Batcher

/-- The state of `_fireSoon`'s debouncing: the `_bufferedEvents` list and
the absolute time at which the pending `setTimeout` handle fires (if any). -/
structure BatchState where
  pending : List ChangeEvent
  deadline : Option Nat
deriving DecidableEq, Repr

/-- One `_fireSoon(...events)` call at time `now`: append the events,
`clearTimeout` the pending handle, `setTimeout(..., 5)`. -/
def fireSoon (now : Nat) (events : List ChangeEvent) (s : BatchState) : BatchState :=
  { pending := s.pending ++ events, deadline := some (now + 5) }

/-- Run the batcher over a trace of `_fireSoon` calls (each a list of
events, tagged with a non-decreasing call time), returning the delivered
batches in delivery order.  A pending timer whose deadline is reached
before the next call fires first (delivering the whole buffer and clearing
it); any remaining timer fires after the last call. -/
def run : BatchState → List (Nat × List ChangeEvent) → List (List ChangeEvent)
  | s, [] =>
    match s.deadline with
    | none => []
    | some _ => [s.pending]
  | s, (t, evs) :: rest =>
    match s.deadline with
    | some d =>
      if d ≤ t then
        s.pending :: run (fireSoon t evs { pending := [], deadline := none }) rest
      else
        run (fireSoon t evs s) rest
    | none => run (fireSoon t evs s) rest

/-- Deliveries produced by a trace of `_fireSoon` calls starting from the
idle state. -/
def deliveries (trace : List (Nat × List ChangeEvent)) : List (List ChangeEvent) :=
  run { pending := [], deadline := none } trace

end Batcher

/-! ## File-search pattern compilation (`convertSimple2RegExpPattern`, `util.ts`) -/

/-- The JavaScript `\s` character class (the whitespace part of the escape
set in `convertSimple2RegExpPattern`'s final replace). -/
def isJsWhitespace (c : Char) : Bool :=
  let n := c.toNat
  n == 9 || n == 10 || n == 11 || n == 12 || n == 13 || n == 32 || n == 160 ||
  n == 0x1680 || (0x2000 ≤ n && n ≤ 0x200a) || n == 0x2028 || n == 0x2029 ||
  n == 0x202f || n == 0x205f || n == 0x3000 || n == 0xfeff

/-- The capture set of the final replace of `convertSimple2RegExpPattern`:
`[\-\\\{\}\+\?\|\^\$\.\,\[\]\(\)\#\s]`.  It contains every JavaScript regex
metacharacter except `*`. -/
def isEscSetChar (c : Char) : Bool :=
  let n := c.toNat
  n == 45 || n == 92 || n == 123 || n == 125 || n == 43 || n == 63 ||
  n == 124 || n == 94 || n == 36 || n == 46 || n == 44 || n == 91 ||
  n == 93 || n == 40 || n == 41 || n == 35 || isJsWhitespace c

/-- `pattern.split("").map(x => x).join(".*")` — the `map` is the identity
(its "escape each character" comment notwithstanding). -/
def joinDotStar : List Char → List Char
  | [] => []
  | [c] => [c]
  | c :: c2 :: rest => c :: '.' :: '*' :: joinDotStar (c2 :: rest)

/-- Consume a maximal run of `*` (the greedy `\*+` tail of the collapse
regex). -/
def dropStars : List Char → List Char
  | '*' :: rest => dropStars rest
  | cs => cs

/-- One global-replace pass of `.replace(/\.\*\*+/g, ".*")`: scan left to
right, replace each leftmost match of `.` `*` `*`+ (greedy) by `.*`, and
continue after it.  Fuel-indexed for structural recursion; fuel equal to the
input length always suffices since each step consumes at least one
character. -/
def collapseGo : Nat → List Char → List Char
  | 0, cs => cs
  | fuel + 1, c1 :: c2 :: c3 :: rest =>
    if c1 == '.' && c2 == '*' && c3 == '*' then
      '.' :: '*' :: collapseGo fuel (dropStars rest)
    else c1 :: collapseGo fuel (c2 :: c3 :: rest)
  | _ + 1, cs => cs

/-- One global-replace pass of
`.replace(/([\-\\\{\}\+\?\|\^\$\.\,\[\]\(\)\#\s])\.\*/g, "\\$1.*")`:
each escape-set character that is immediately followed by `.*` gains a
leading backslash. -/
def escapeGo : List Char → List Char
  | c1 :: c2 :: c3 :: rest =>
    if isEscSetChar c1 && c2 == '.' && c3 == '*' then
      '\\' :: c1 :: '.' :: '*' :: escapeGo rest
    else c1 :: escapeGo (c2 :: c3 :: rest)
  | cs => cs

/-- `convertSimple2RegExpPattern` (`util.ts`): join the characters with
`.*`, collapse `\.\*\*+` runs, append a trailing `.*`, then escape the
capture-set characters that are followed by `.*`. -/
def convertSimple2RegExpPattern (pattern : String) : String :=
  let joined := joinDotStar pattern.toList
  let appended := collapseGo joined.length joined ++ ['.', '*']
  String.mk (escapeGo appended)

/-- The JavaScript regex metacharacters, as escaped by `escape-string-regexp`
(the set includes `*`). -/
def isJsRegexSpecial (c : Char) : Bool :=
  let n := c.toNat
  n == 124 || n == 92 || n == 123 || n == 125 || n == 40 || n == 41 ||
  n == 91 || n == 93 || n == 94 || n == 36 || n == 43 || n == 42 ||
  n == 63 || n == 46 || n == 45

/-- Escape one literal character (backslash-prefix the metacharacters). -/
def escapeAllChar (c : Char) : List Char :=
  if isJsRegexSpecial c then ['\\', c] else [c]

/-- Join already-escaped units with `.*` between every pair. -/
def joinUnits : List (List Char) → List Char
  | [] => []
  | [u] => u
  | u :: u2 :: rest => u ++ '.' :: '*' :: joinUnits (u2 :: rest)

/-- Modelled from the claim's words (the procedure the specification
describes): escape every literal character of the pattern, join the
characters with `.*` between every pair, collapse runs of adjacent
wildcards into a single `.*`, and append a trailing `.*`. -/
def claimCompile (pattern : String) : String :=
  let joined := joinUnits (pattern.toList.map escapeAllChar)
  let collapsed := collapseGo joined.length joined
  String.mk (collapsed ++ ['.', '*'])

/-! ## A JavaScript regex interpreter for the compiled patterns

The patterns produced above use only literal characters, identity escapes
`\c`, the any-character class `.` (which in JavaScript does not match line
terminators), and the postfix repetition `*`.  `reAccept` interprets exactly
this fragment, fuel-indexed so that it is structurally recursive; each step
shortens `regex.length + input.length`, so `reFuel` is always enough fuel. -/

/-- JavaScript line terminators (not matched by `.`). -/
def isLineTerminator (c : Char) : Bool :=
  let n := c.toNat
  n == 10 || n == 13 || n == 0x2028 || n == 0x2029

/-- Case-folded character comparison, modelling the `i` flag. -/
def charEqCI (ci : Bool) (c x : Char) : Bool :=
  if ci then c.toLower == x.toLower else c == x

/-- Does the atom (`some c` a literal, `none` the dot) match `x`? -/
def atomMatches (ci : Bool) (a : Option Char) (x : Char) : Bool :=
  match a with
  | none => !isLineTerminator x
  | some c => charEqCI ci c x

/-- Parse one regex atom: an identity escape, a dot, or a literal.  `none`
for an empty regex, a dangling backslash, or a leading `*` (for which
JavaScript throws "nothing to repeat"; the interpreter simply rejects). -/
def parseAtom : List Char → Option (Option Char × List Char)
  | [] => none
  | c :: rest =>
    if c == '\\' then
      match rest with
      | c2 :: rest2 => some (some c2, rest2)
      | [] => none
    else if c == '.' then some (none, rest)
    else if c == '*' then none
    else some (some c, rest)

/-- Anchored regex acceptance: does some prefix of `s` match `re`? -/
def reAccept (ci : Bool) : Nat → List Char → List Char → Bool
  | 0, _, _ => false
  | _ + 1, [], _ => true
  | fuel + 1, re, s =>
    match parseAtom re with
    | none => false
    | some (a, rest) =>
      if rest.head? = some '*' then
        reAccept ci fuel rest.tail s ||
          (match s with
           | [] => false
           | x :: s' => atomMatches ci a x && reAccept ci fuel re s')
      else
        match s with
        | [] => false
        | x :: s' => atomMatches ci a x && reAccept ci fuel rest s'

/-- Sufficient fuel for `reAccept`. -/
def reFuel (re s : List Char) : Nat :=
  re.length + s.length + 1

/-- Unanchored test, as `RegExp.prototype.exec` performs it: try to match at
every start position. -/
def reTest (ci : Bool) (re s : List Char) : Bool :=
  (List.range (s.length + 1)).any (fun i => reAccept ci (reFuel re (s.drop i)) re (s.drop i))

/-- `provideFileSearchResults` pattern test (`nativeFSProvider.ts` /
`memFSProvider.ts`): `new RegExp(convertSimple2RegExpPattern(pattern), "i")`
run unanchored against the candidate path. -/
def fileSearchMatches (pattern path : String) : Bool :=
  reTest true (convertSimple2RegExpPattern pattern).toList path.toList

/-- The same test with the claim's compilation procedure in place of the
source's. -/
def claimFileSearchMatches (pattern path : String) : Bool :=
  reTest true (claimCompile pattern).toList path.toList

/-! ## The text search engine (`searchText` / `search` / `isFileBinary`, `util.ts`) -/

/-- `vscode.TextSearchQuery`. -/
structure TextQuery where
  pattern : String
  isRegExp : Bool
  isCaseSensitive : Bool
  isWordMatch : Bool
deriving DecidableEq, Repr

/-- One reported `vscode.TextSearchResult`: the file, the zero-based line
number, the end-exclusive column range, and the preview line text. -/
structure SearchMatch where
  path : List String
  lineNumber : Nat
  colStart : Nat
  colEnd : Nat
  previewText : String
deriving DecidableEq, Repr

/-- The slice of the `vscode.FileSystemProvider` interface the search engine
uses.  The search code is generic over the provider, and a provider call may
reject — for example a file whose `readFile` fails. -/
structure SearchFs where
  readDirectory : List String → Except FsErrorKind (List (String × VsFileType))
  readFile : List String → Except FsErrorKind (List Nat)

/-- The `istextorbinary` detector used by `isFileBinary` (an external
library): extension-based detection on the path, and content-based
detection on the decoded bytes. -/
structure BinDetector where
  byName : List String → Bool
  byContent : List Nat → Bool

/-- `filePath.path.match(/\.(asar)$/)`. -/
def endsWithAsar (p : List String) : Bool :=
  ".asar".toList.isSuffixOf (p.getLastD "").toList

/-- `isFileBinary` (`util.ts`): extension check first (`isBinary(path)` or
the `.asar` suffix), otherwise content sampling (`isBinary(null, buffer)`).
Note that the file is read in both branches, so a failing `readFile`
propagates even for files that are binary by extension. -/
def isFileBinary (fs : SearchFs) (det : BinDetector) (p : List String) :
    Except FsErrorKind (Bool × List Nat) :=
  if det.byName p || endsWithAsar p then
    (fs.readFile p).map (fun content => (true, content))
  else
    (fs.readFile p).map (fun content => (det.byContent content, content))

/-- `TextDecoder.decode`, modelled for the single-byte contents exercised by
the claims (multi-byte UTF-8 sequences are outside the modelled domain). -/
def asciiDecode (bytes : List Nat) : String :=
  String.mk (bytes.map (fun b => Char.ofNat b))

/-- `stringContent.split("\n")`. -/
def splitLines : List Char → List (List Char)
  | [] => [[]]
  | c :: rest =>
    match splitLines rest with
    | l :: ls => if c = '\n' then [] :: l :: ls else (c :: l) :: ls
    | [] => [[c]]

/-- Attach the start offset of each line, as the `lines` array of `search`
does (`index = index + text.length + 1`). -/
def withIndices : Nat → List (List Char) → List (List Char × Nat)
  | _, [] => []
  | i, l :: ls => (l, i) :: withIndices (i + l.length + 1) ls

/-- The lazily-built line index of `search`. -/
def linesOf (cs : List Char) : List (List Char × Nat) :=
  withIndices 0 (splitLines cs)

/-- Does `pat` match a prefix of `xs` (up to case according to `ci`)? -/
def prefixMatchesCI (ci : Bool) : List Char → List Char → Bool
  | [], _ => true
  | _ :: _, [] => false
  | p :: ps, x :: xs => charEqCI ci p x && prefixMatchesCI ci ps xs

/-- The `queryRegexp.exec` loop over the content for a literal pattern:
successive leftmost matches, each continuing at `index + length` — i.e. the
start positions of the non-overlapping occurrences, left to right.
Fuel-indexed for structural recursion; fuel `cs.length + 1` suffices since
each step consumes at least one character of the remainder. -/
def occGo (ci : Bool) (pat : List Char) : Nat → Nat → List Char → List Nat
  | 0, _, _ => []
  | fuel + 1, pos, rem =>
    match rem with
    | [] => []
    | _ :: rem' =>
      if prefixMatchesCI ci pat rem then
        pos :: occGo ci pat fuel (pos + pat.length) (rem.drop pat.length)
      else occGo ci pat fuel (pos + 1) rem'

/-- Start positions of the matches of a literal pattern. -/
def occurrences (ci : Bool) (pat cs : List Char) : List Nat :=
  occGo ci pat (cs.length + 1) 0 cs

/-- The match loop of `search` (`util.ts`) for one decoded file: the
pattern is escaped and run globally (case-insensitively unless
`isCaseSensitive`), and each match index is mapped through the line index to
a zero-based, end-exclusive `(line, column)` range with the line text as
preview.  The embedding covers the literal configurations
(`isRegExp = false`, `isWordMatch = false`); for the remaining
configurations — whose behaviour no claim depends on — it reports no
matches.  An empty literal pattern makes the source's `exec` loop spin
forever (lastIndex never advances) and is likewise outside the modelled
domain. -/
def computeMatches (q : TextQuery) (p : List String) (content : String) : List SearchMatch :=
  if q.isRegExp || q.isWordMatch then []
  else
    let cs := content.toList
    let pat := q.pattern.toList
    if pat.isEmpty then []
    else
      let lines := linesOf cs
      (occurrences (!q.isCaseSensitive) pat cs).map (fun idx =>
        let lineNumber := (cs.take idx).countP (fun c => c = '\n')
        let li := lines.getD lineNumber ([], 0)
        { path := p, lineNumber := lineNumber,
          colStart := idx - li.2, colEnd := idx - li.2 + pat.length,
          previewText := String.mk li.1 })

/-- `search` (`util.ts`): check the cancellation token (each check consumes
one tick of the counter), classify the file via `isFileBinary` — whose read
failure propagates — skip binary files silently, otherwise decode and
report the matches. -/
def searchFile (fs : SearchFs) (det : BinDetector) (q : TextQuery) (tok : Nat → Bool)
    (ctr : Nat) (p : List String) : Except FsErrorKind (List SearchMatch × Nat) :=
  if tok ctr then .ok ([], ctr + 1)
  else
    match isFileBinary fs det p with
    | .error e => .error e
    | .ok (binary, content) =>
      if binary then .ok ([], ctr + 1)
      else .ok (computeMatches q p (asciiDecode content), ctr + 1)

/-- The entry loop of `searchText` (`util.ts`) over one directory's
entries: exclude/include filtering on the joined path, `search` for files,
recursion for subdirectories (the recursion is supplied as `sub`), with the
reported matches concatenated in enumeration order — the sequential
rendering of the source's `Promise.all` fan-out. -/
def searchEntries (sub : Nat → List String → Except FsErrorKind (List SearchMatch × Nat))
    (fileScan : Nat → List String → Except FsErrorKind (List SearchMatch × Nat))
    (incls excls : List (List String → Bool)) (dir : List String) :
    Nat → List (String × VsFileType) → Except FsErrorKind (List SearchMatch × Nat)
  | c, [] => .ok ([], c)
  | c, (name, ft) :: rest =>
    let filePath := dir ++ [name]
    if excls.any (fun e => e filePath) then
      searchEntries sub fileScan incls excls dir c rest
    else if !incls.isEmpty && !incls.any (fun e => e filePath) then
      searchEntries sub fileScan incls excls dir c rest
    else if ft = VsFileType.file then
      (fileScan c filePath).bind (fun r =>
        (searchEntries sub fileScan incls excls dir r.2 rest).map
          (fun r2 => (r.1 ++ r2.1, r2.2)))
    else if ft = VsFileType.directory then
      (sub c filePath).bind (fun r =>
        (searchEntries sub fileScan incls excls dir r.2 rest).map
          (fun r2 => (r.1 ++ r2.1, r2.2)))
    else searchEntries sub fileScan incls excls dir c rest

/-- `searchText` (`util.ts`): check the cancellation token at the directory
boundary, read the directory — a failure propagates — and process the
entries.  Fuel bounds the recursion depth (the source recurses on a finite
tree); fuel exhaustion yields the `.Unknown` sentinel, unreachable whenever
fuel exceeds the tree depth. -/
def searchTextGo (fs : SearchFs) (det : BinDetector) (q : TextQuery)
    (incls excls : List (List String → Bool)) (tok : Nat → Bool) :
    Nat → Nat → List String → Except FsErrorKind (List SearchMatch × Nat)
  | 0, _, _ => .error .Unknown
  | fuel + 1, ctr, dir =>
    if tok ctr then .ok ([], ctr + 1)
    else
      (fs.readDirectory dir).bind (fun entries =>
        searchEntries (searchTextGo fs det q incls excls tok fuel)
          (searchFile fs det q tok) incls excls dir (ctr + 1) entries)

/-- `provideTextSearchResults` (`nativeFSProvider.ts` / `memFSProvider.ts`):
run `searchText` from the root folder; the reported matches are streamed to
the progress callback, and a rejection of the walk propagates to the
caller. -/
def provideTextSearch (fs : SearchFs) (det : BinDetector) (q : TextQuery)
    (incls excls : List (List String → Bool)) (tok : Nat → Bool)
    (fuel : Nat) (folder : List String) : Except FsErrorKind (List SearchMatch) :=
  (searchTextGo fs det q incls excls tok fuel 0 folder).map (fun r => r.1)

/-! ## Concrete fixtures used by the closed theorems below -/

/-- Case-insensitive subsequence test (greedy): do the characters of the
first list appear, in order, within the second, up to `toLower`? -/
def subseqCI : List Char → List Char → Bool
  | [], _ => true
  | _ :: _, [] => false
  | c :: p, x :: s => if charEqCI true c x then subseqCI p s else subseqCI (c :: p) s

/-- The bytes of `"hello\nworld\nhello again"`. -/
def demoBytes : List Nat :=
  "hello\nworld\nhello again".toList.map Char.toNat

/-- A provider with the single file `/f.txt` holding `demoBytes`. -/
def demoSearchFs : SearchFs :=
  { readDirectory := fun p => if p = [] then .ok [("f.txt", .file)] else .error .NotFound
    readFile := fun p => if p = ["f.txt"] then .ok demoBytes else .error .NotFound }

/-- A detector that classifies nothing as binary. -/
def noBinDetector : BinDetector :=
  ⟨fun _ => false, fun _ => false⟩

/-- The literal, case-sensitive, non-word query for `"hello"`. -/
def demoQuery : TextQuery :=
  ⟨"hello", false, true, false⟩

/-- A provider whose root directory lists one file whose read rejects. -/
def badReadSearchFs : SearchFs :=
  { readDirectory := fun p => if p = [] then .ok [("bad.txt", .file)] else .error .NotFound
    readFile := fun _ => .error .Unknown }

/-- A never-cancelled token. -/
def noCancel : Nat → Bool := fun _ => false

/-- One unit of the compiled form of a `*`-free pattern character: the
character, backslash-escaped when it lies in the final replace's capture
set, followed by one `.*` wildcard group. -/
def escUnit (c : Char) : List Char :=
  (if isEscSetChar c then ['\\', c] else [c]) ++ ['.', '*']

/-- The compiled shape of a `*`-free pattern: one `escUnit` per character. -/
def escFlat (p : List Char) : List Char :=
  p.flatMap escUnit

/-- No occurrence of the collapse regex `\.\*\*`. -/
def noDotStarStar : List Char → Bool
  | c1 :: c2 :: c3 :: rest =>
    if c1 == '.' && c2 == '*' && c3 == '*' then false
    else noDotStarStar (c2 :: c3 :: rest)
  | _ => true

/-! ## Generic lemmas about the tree model -/

theorem lookupChild_setChild_self (ch : List (String × FsEntry)) (n : String) (e : FsEntry) :
    lookupChild (setChild ch n e) n = some e := by
  induction ch with
  | nil => simp [lookupChild, setChild, List.lookup]
  | cons hd tl ih =>
    obtain ⟨k, v⟩ := hd
    by_cases hk : k = n
    · simp [lookupChild, setChild, hk, List.lookup]
    · have hnk : (n == k) = false := beq_eq_false_iff_ne.mpr (fun h => hk h.symm)
      simp only [setChild, if_neg hk, lookupChild, List.lookup, hnk]
      simpa [lookupChild] using ih

theorem resolve_append (t : FsEntry) (ps : List String) (n : String) :
    resolve t (ps ++ [n]) =
      (resolve t ps).bind (fun e =>
        match e with
        | .dir ch => lookupChild ch n
        | .file _ => none) := by
  induction ps generalizing t with
  | nil =>
    cases t with
    | file d => simp [resolve]
    | dir ch =>
      simp only [List.nil_append, resolve, Option.bind]
      cases lookupChild ch n with
      | none => rfl
      | some e => cases e <;> rfl
  | cons c rest ih =>
    cases t with
    | file d => simp [resolve]
    | dir ch =>
      simp only [List.cons_append, resolve]
      cases lookupChild ch c with
      | none => rfl
      | some e => simpa using ih e

theorem resolve_take_isDir (t : FsEntry) (p : List String) (e : FsEntry)
    (h : resolve t p = some e) :
    ∀ k, k < p.length → ∃ ch, resolve t (p.take k) = some (.dir ch) := by
  induction p generalizing t with
  | nil => intro k hk; exact absurd hk (by simp)
  | cons c rest ih =>
    intro k hk
    cases t with
    | file d => simp [resolve] at h
    | dir ch =>
      cases k with
      | zero => exact ⟨ch, rfl⟩
      | succ k' =>
        simp only [resolve, Option.bind_eq_some] at h
        obtain ⟨sub, hsub, hres⟩ := h
        obtain ⟨ch', hch'⟩ := ih sub hres k' (by simpa using hk)
        refine ⟨ch', ?_⟩
        simp [resolve, hsub, hch']

/-! ## Claim C10: silent no-op when the backend command returns no result -/

/-- **C10** (confirmed).  At the facade providers' interface, a backend
command for `writeFile`, `rename`, `delete` or `createDirectory` that
resolves with no result object makes the operation resolve successfully
with no change events and no error — exactly the observable outcome of a
command that resolved with an empty event list, so callers cannot tell the
silent no-op from a completed mutation. -/
theorem facade_undefined_result_silent_noop :
    facadeWriteFile none = .ok [] ∧
    facadeRename none = .ok [] ∧
    facadeDelete none = .ok [] ∧
    facadeCreateDirectory none = .ok [] ∧
    facadeWriteFile none = facadeWriteFile (some ⟨[]⟩) ∧
    facadeRename none = facadeRename (some ⟨[]⟩) ∧
    facadeDelete none = facadeDelete (some ⟨[]⟩) ∧
    facadeCreateDirectory none = facadeCreateDirectory (some ⟨[]⟩) :=
  ⟨rfl, rfl, rfl, rfl, rfl, rfl, rfl, rfl⟩

/-! ## Claim C2: permission denial does not surface as Unavailable -/

/-- **C2** (code bug).  The spec says a denied permission makes the
operation fail with `Unavailable`, distinct from `NotFound`.  In the code,
`helper` computes `verifyPermission` and discards the boolean: its result —
and hence the operation's subsequent behaviour inside the backend — is
identical whether permission is granted or denied (first conjunct; in
particular, with the handle present and every permission denied, `helper`
still hands the operation the handle and the remaining components, third
conjunct).  The failure that the denied native operation then raises is
caught by the facade provider's catch-all, which rethrows every failure of
`nativeFS.stat` as `FileNotFound` — never `Unavailable` (second
conjunct). -/
theorem helper_discards_permission_and_stat_maps_all_to_notFound :
    (∀ (m : List (String × FsEntry)) (perm perm' : NativeFS.PermOracle) (path mode : String),
      NativeFS.helper m perm path mode = NativeFS.helper m perm' path mode) ∧
    (∀ cmd : CmdOutcome VsFileStat,
      (∃ s, natStatFacade cmd = .ok s) ∨ natStatFacade cmd = .error .NotFound) ∧
    NativeFS.helper [("/r1/photos/", .dir [])] ⟨fun _ => false, fun _ => false⟩
      "/r1/photos/cat.png" "read" = (some (.dir []), ["cat.png"]) := by
  refine ⟨fun m perm perm' path mode => rfl, fun cmd => ?_, rfl⟩
  match cmd with
  | .ok (some s) => exact Or.inl ⟨s, rfl⟩
  | .ok none => exact Or.inr rfl
  | .error _ => exact Or.inr rfl

/-! ## Claim C6: the concrete text-search example -/

/-- **C6** (confirmed).  Scanning a file whose decoded content is
`"hello\nworld\nhello again"` for the literal pattern `"hello"`
(case-sensitive, no regex, no word-match) reports exactly two matches, at
line 0 column 0 and line 2 column 0, with zero-based end-exclusive ranges
spanning columns 0 to 5 of their lines. -/
theorem search_hello_two_matches :
    searchFile demoSearchFs noBinDetector demoQuery noCancel 0 ["f.txt"] =
      .ok ([⟨["f.txt"], 0, 0, 5, "hello"⟩, ⟨["f.txt"], 2, 0, 5, "hello again"⟩], 1) := by
  rfl

/-! ## Claim C8: the notification batcher -/

theorem Batcher.run_pending (trace : List (Nat × List ChangeEvent)) :
    ∀ (pend : List ChangeEvent) (d : Nat),
    List.Chain' (fun a b => a.1 ≤ b.1 ∧ b.1 < a.1 + 5) trace →
    (∀ first ∈ trace.head?, first.1 < d) →
    Batcher.run ⟨pend, some d⟩ trace = [pend ++ (trace.map Prod.snd).flatten] := by
  induction trace with
  | nil => intro pend d _ _; simp [Batcher.run]
  | cons hd tl ih =>
    intro pend d hchain hd1
    obtain ⟨t, evs⟩ := hd
    have ht : t < d := hd1 (t, evs) (by simp)
    have hstep : Batcher.run ⟨pend, some d⟩ ((t, evs) :: tl) =
        Batcher.run ⟨pend ++ evs, some (t + 5)⟩ tl := by
      simp [Batcher.run, Batcher.fireSoon, Nat.not_le.mpr ht]
    rw [hstep]
    have htl : List.Chain' (fun a b => a.1 ≤ b.1 ∧ b.1 < a.1 + 5) tl := hchain.tail
    have hhd : ∀ first ∈ tl.head?, first.1 < t + 5 := by
      intro first hfirst
      cases tl with
      | nil => simp at hfirst
      | cons x xs =>
        simp only [List.head?_cons, Option.mem_def, Option.some.injEq] at hfirst
        subst hfirst
        exact (List.chain'_cons.mp hchain).1.2
    rw [ih (pend ++ evs) (t + 5) htl hhd]
    simp

/-- **C8** (confirmed).  `_fireSoon` appends each incoming batch of events
to the pending buffer and restarts the 5-unit timer; when the timer finally
expires it delivers the entire pending buffer as one batch — the
concatenation, in arrival order and without de-duplication, of everything
pushed — and clears it.  Hence any burst of calls each arriving within the
debounce window of its predecessor produces exactly one delivered batch. -/
theorem fireSoon_burst_single_batch (trace : List (Nat × List ChangeEvent))
    (hne : trace ≠ [])
    (hchain : List.Chain' (fun a b => a.1 ≤ b.1 ∧ b.1 < a.1 + 5) trace) :
    Batcher.deliveries trace = [(trace.map Prod.snd).flatten] := by
  cases trace with
  | nil => exact absurd rfl hne
  | cons hd tl =>
    obtain ⟨t, evs⟩ := hd
    have hstep : Batcher.deliveries ((t, evs) :: tl) =
        Batcher.run ⟨evs, some (t + 5)⟩ tl := by
      simp [Batcher.deliveries, Batcher.run, Batcher.fireSoon]
    rw [hstep]
    have hhd : ∀ first ∈ tl.head?, first.1 < t + 5 := by
      intro first hfirst
      cases tl with
      | nil => simp at hfirst
      | cons x xs =>
        simp only [List.head?_cons, Option.mem_def, Option.some.injEq] at hfirst
        subst hfirst
        exact (List.chain'_cons.mp hchain).1.2
    rw [Batcher.run_pending tl evs (t + 5) hchain.tail hhd]
    simp

/-- Witness for C8: five `writeFile`-style events pushed at times
0,1,2,3,4 — all within the debounce window — are delivered as exactly one
batch of five events in arrival order. -/
theorem fireSoon_burst_single_batch_witness :
    ([(0, [(FileChangeType.Changed, ["a"])]), (1, [(.Changed, ["b"])]),
      (2, [(.Changed, ["c"])]), (3, [(.Changed, ["d"])]),
      (4, [(.Changed, ["e"])])] ≠
        ([] : List (Nat × List ChangeEvent))) ∧
    List.Chain' (fun a b => a.1 ≤ b.1 ∧ b.1 < a.1 + 5)
      [(0, [(FileChangeType.Changed, ["a"])]), (1, [(.Changed, ["b"])]),
        (2, [(.Changed, ["c"])]), (3, [(.Changed, ["d"])]), (4, [(.Changed, ["e"])])] ∧
    Batcher.deliveries
      [(0, [(FileChangeType.Changed, ["a"])]), (1, [(.Changed, ["b"])]),
        (2, [(.Changed, ["c"])]), (3, [(.Changed, ["d"])]), (4, [(.Changed, ["e"])])] =
      [[(.Changed, ["a"]), (.Changed, ["b"]), (.Changed, ["c"]),
        (.Changed, ["d"]), (.Changed, ["e"])]] := by
  refine ⟨by simp, by simp [List.chain'_cons], ?_⟩
  rw [fireSoon_burst_single_batch _ (by simp) (by simp [List.chain'_cons])]
  rfl

/-! ## Characterization lemmas for the backend operations -/

theorem setChild_setChild (ch : List (String × FsEntry)) (n : String) (e e' : FsEntry) :
    setChild (setChild ch n e) n e' = setChild ch n e' := by
  induction ch with
  | nil => simp [setChild]
  | cons hd tl ih =>
    obtain ⟨k, v⟩ := hd
    by_cases hk : k = n
    · simp [setChild, hk]
    · simp [setChild, hk, ih]

theorem NativeFS.writeFileGo_spec (ps : List String) :
    ∀ (ch pch : NativeFS.NativeDir) (n : String) (data : List Nat) (create overwrite : Bool),
    resolve (.dir ch) ps = some (.dir pch) →
    ((lookupChild pch n = none → create = false →
        NativeFS.writeFileGo ch (ps ++ [n]) data create overwrite = .error .NotFound) ∧
     (∀ e, lookupChild pch n = some e → create = true → overwrite = false →
        NativeFS.writeFileGo ch (ps ++ [n]) data create overwrite = .error .AlreadyExists) ∧
     (∀ d, lookupChild pch n = some (.dir d) → (create = false ∨ overwrite = true) →
        NativeFS.writeFileGo ch (ps ++ [n]) data create overwrite = .error .TypeMismatch) ∧
     (∀ f, lookupChild pch n = some (.file f) → (create = false ∨ overwrite = true) →
        ∃ ch', NativeFS.writeFileGo ch (ps ++ [n]) data create overwrite = .ok (ch', true) ∧
          resolve (.dir ch') (ps ++ [n]) = some (.file data)) ∧
     (lookupChild pch n = none → create = true →
        ∃ ch', NativeFS.writeFileGo ch (ps ++ [n]) data create overwrite = .ok (ch', false) ∧
          resolve (.dir ch') (ps ++ [n]) = some (.file data))) := by
  induction ps with
  | nil =>
    intro ch pch n data create overwrite h
    have hch : ch = pch := by
      simpa [resolve] using h
    subst hch
    refine ⟨?_, ?_, ?_, ?_, ?_⟩
    · intro hl hc
      simp [NativeFS.writeFileGo, hl, hc]
    · intro e hl hc ho
      simp [NativeFS.writeFileGo, hl, hc, ho]
    · intro d hl hco
      rcases hco with hc | ho
      · simp [NativeFS.writeFileGo, hl, hc]
      · subst ho
        cases create <;> simp [NativeFS.writeFileGo, hl]
    · intro f hl hco
      refine ⟨setChild ch n (.file data), ?_, ?_⟩
      · rcases hco with hc | ho
        · simp [NativeFS.writeFileGo, hl, hc]
        · subst ho
          cases create <;> simp [NativeFS.writeFileGo, hl]
      · simp [resolve, lookupChild_setChild_self]
    · intro hl hc
      refine ⟨setChild ch n (.file data), ?_, ?_⟩
      · simp [NativeFS.writeFileGo, hl, hc]
      · simp [resolve, lookupChild_setChild_self]
  | cons c ps' ih =>
    intro ch pch n data create overwrite h
    simp only [resolve, Option.bind_eq_some] at h
    obtain ⟨sub, hsub, hres⟩ := h
    cases sub with
    | file f =>
      exfalso
      cases ps' with
      | nil => simp [resolve] at hres
      | cons a b => simp [resolve] at hres
    | dir subch =>
      have ihs := ih subch pch n data create overwrite hres
      rcases hps : ps' ++ [n] with _ | ⟨c2, rest⟩
      · exact absurd hps (by simp)
      · have hgo : NativeFS.writeFileGo ch ((c :: ps') ++ [n]) data create overwrite =
            (NativeFS.writeFileGo subch (ps' ++ [n]) data create overwrite).map
              (fun r => (setChild ch c (.dir r.1), r.2)) := by
          rw [List.cons_append, hps]
          simp [NativeFS.writeFileGo, hsub]
        have hback : ∀ ch'', resolve (.dir ch'') (ps' ++ [n]) = some (.file data) →
            resolve (.dir (setChild ch c (.dir ch''))) ((c :: ps') ++ [n]) =
              some (.file data) := by
          intro ch'' hr
          simp [resolve, lookupChild_setChild_self, hr]
        refine ⟨?_, ?_, ?_, ?_, ?_⟩
        · intro hl hc
          rw [hgo, ihs.1 hl hc]
          rfl
        · intro e hl hc ho
          rw [hgo, ihs.2.1 e hl hc ho]
          rfl
        · intro d hl hco
          rw [hgo, ihs.2.2.1 d hl hco]
          rfl
        · intro f hl hco
          obtain ⟨ch'', hok, hr⟩ := ihs.2.2.2.1 f hl hco
          exact ⟨setChild ch c (.dir ch''), by rw [hgo, hok]; rfl, hback ch'' hr⟩
        · intro hl hc
          obtain ⟨ch'', hok, hr⟩ := ihs.2.2.2.2 hl hc
          exact ⟨setChild ch c (.dir ch''), by rw [hgo, hok]; rfl, hback ch'' hr⟩

theorem NativeFS.readFile_of_resolve :
    ∀ (p : List String) (ch : NativeFS.NativeDir) (d : List Nat),
    resolve (.dir ch) p = some (.file d) → NativeFS.readFile ch p = .ok d := by
  intro p
  induction p with
  | nil => intro ch d h; simp [resolve] at h
  | cons c rest ih =>
    intro ch d h
    simp only [resolve, Option.bind_eq_some] at h
    obtain ⟨sub, hsub, hres⟩ := h
    cases rest with
    | nil =>
      have : sub = .file d := by simpa [resolve] using hres
      subst this
      simp [NativeFS.readFile, hsub]
    | cons c2 rest' =>
      cases sub with
      | file f => simp [resolve] at hres
      | dir subch =>
        simp only [NativeFS.readFile, hsub]
        exact ih subch d hres

theorem MemFS.pfsWriteFile_spec (ps : List String) :
    ∀ (t : FsEntry) (pch : List (String × FsEntry)) (n : String) (data : List Nat),
    resolve t ps = some (.dir pch) →
    ((∀ d, lookupChild pch n = some (.dir d) →
        MemFS.pfsWriteFile t (ps ++ [n]) data = .error .IsADirectory) ∧
     (isDirEntry (lookupChild pch n) = false →
        ∃ t', MemFS.pfsWriteFile t (ps ++ [n]) data = .ok t' ∧
          resolve t' (ps ++ [n]) = some (.file data))) := by
  induction ps with
  | nil =>
    intro t pch n data h
    have ht : t = .dir pch := by simpa [resolve] using h
    subst ht
    constructor
    · intro d hl
      simp [MemFS.pfsWriteFile, hl]
    · intro hnd
      refine ⟨.dir (setChild pch n (.file data)), ?_, ?_⟩
      · rcases hl : lookupChild pch n with _ | e
        · simp [MemFS.pfsWriteFile, hl]
        · cases e with
          | file f => simp [MemFS.pfsWriteFile, hl]
          | dir d => rw [hl] at hnd; simp [isDirEntry] at hnd
      · simp [resolve, lookupChild_setChild_self]
  | cons c ps' ih =>
    intro t pch n data h
    cases t with
    | file f => simp [resolve] at h
    | dir ch =>
      simp only [resolve, Option.bind_eq_some] at h
      obtain ⟨sub, hsub, hres⟩ := h
      have ihs := ih sub pch n data hres
      rcases hps : ps' ++ [n] with _ | ⟨c2, rest⟩
      · exact absurd hps (by simp)
      · have hgo : MemFS.pfsWriteFile (.dir ch) ((c :: ps') ++ [n]) data =
            (MemFS.pfsWriteFile sub (ps' ++ [n]) data).map
              (fun sub' => .dir (setChild ch c sub')) := by
          rw [List.cons_append, hps]
          simp [MemFS.pfsWriteFile, hsub]
        constructor
        · intro d hl
          rw [hgo, ihs.1 d hl]
          rfl
        · intro hnd
          obtain ⟨t', hok, hr⟩ := ihs.2 hnd
          refine ⟨.dir (setChild ch c t'), by rw [hgo, hok]; rfl, ?_⟩
          simp [resolve, lookupChild_setChild_self, hr]

/-! ## Claim C1: the writeFile policy -/

/-- **C1 counterexample**.  On the native backend, writing to a path that
holds a directory with `{create: true, overwrite: false}` fails
`AlreadyExists` — not `IsADirectory` as the claimed four-case policy (whose
first case takes precedence) requires. -/
theorem native_writeFile_dir_not_isADirectory :
    NativeFS.writeFile [("d", .dir [])] ["d"] [1] true false = .error .AlreadyExists ∧
    FsErrorKind.AlreadyExists ≠ FsErrorKind.IsADirectory :=
  ⟨rfl, by decide⟩

/-- **C1** (corrected).  Under a parent directory that exists (resolves to
children `pch`), writing the entry `n`:

The in-memory backend follows the claimed four-case policy — an existing
directory fails `IsADirectory`; a missing entry without `create` fails
`NotFound`; an existing file with `create` and not `overwrite` fails
`AlreadyExists`; otherwise the write succeeds and a fresh entry emits
`Changed` on the parent, then `Created` and `Changed` on the path, while an
overwrite emits `Changed` on the path only.

The native backend deviates: its existence check is by name only, so an
existing *directory* with `create` and not `overwrite` fails
`AlreadyExists` (never `IsADirectory`; with `overwrite` the write attempt
fails with the handle `TypeMismatch` error instead), and a fresh entry
emits `Created` then `Changed` on the path with *no* event on the
parent. -/
theorem writeFile_policy :
    (∀ (t : FsEntry) (pch : List (String × FsEntry)) (ps : List String) (n : String)
        (data : List Nat) (create overwrite : Bool),
      resolve t ps = some (.dir pch) →
      ((∀ d, lookupChild pch n = some (.dir d) →
          MemFS.writeFile t (ps ++ [n]) data create overwrite = .error .IsADirectory) ∧
       (lookupChild pch n = none → create = false →
          MemFS.writeFile t (ps ++ [n]) data create overwrite = .error .NotFound) ∧
       (∀ f, lookupChild pch n = some (.file f) → create = true → overwrite = false →
          MemFS.writeFile t (ps ++ [n]) data create overwrite = .error .AlreadyExists) ∧
       (∀ f, lookupChild pch n = some (.file f) → (create = false ∨ overwrite = true) →
          ∃ t', MemFS.writeFile t (ps ++ [n]) data create overwrite =
              .ok (t', [(.Changed, ps ++ [n])]) ∧
            resolve t' (ps ++ [n]) = some (.file data)) ∧
       (lookupChild pch n = none → create = true →
          ∃ t', MemFS.writeFile t (ps ++ [n]) data create overwrite =
              .ok (t', [(.Changed, ps), (.Created, ps ++ [n]), (.Changed, ps ++ [n])]) ∧
            resolve t' (ps ++ [n]) = some (.file data)))) ∧
    (∀ (ch pch : NativeFS.NativeDir) (ps : List String) (n : String)
        (data : List Nat) (create overwrite : Bool),
      resolve (.dir ch) ps = some (.dir pch) →
      ((lookupChild pch n = none → create = false →
          NativeFS.writeFile ch (ps ++ [n]) data create overwrite = .error .NotFound) ∧
       (∀ e, lookupChild pch n = some e → create = true → overwrite = false →
          NativeFS.writeFile ch (ps ++ [n]) data create overwrite = .error .AlreadyExists) ∧
       (∀ d, lookupChild pch n = some (.dir d) → (create = false ∨ overwrite = true) →
          NativeFS.writeFile ch (ps ++ [n]) data create overwrite = .error .TypeMismatch) ∧
       (∀ f, lookupChild pch n = some (.file f) → (create = false ∨ overwrite = true) →
          ∃ ch', NativeFS.writeFile ch (ps ++ [n]) data create overwrite =
              .ok (ch', [(.Changed, ps ++ [n])]) ∧
            resolve (.dir ch') (ps ++ [n]) = some (.file data)) ∧
       (lookupChild pch n = none → create = true →
          ∃ ch', NativeFS.writeFile ch (ps ++ [n]) data create overwrite =
              .ok (ch', [(.Created, ps ++ [n]), (.Changed, ps ++ [n])]) ∧
            resolve (.dir ch') (ps ++ [n]) = some (.file data)))) := by
  constructor
  · intro t pch ps n data create overwrite h
    have hstat : resolve t (ps ++ [n]) = lookupChild pch n := by
      rw [resolve_append, h]
      rfl
    have hpw := MemFS.pfsWriteFile_spec ps t pch n data h
    refine ⟨?_, ?_, ?_, ?_, ?_⟩
    · intro d hl
      simp [MemFS.writeFile, hstat, hl]
    · intro hl hc
      simp [MemFS.writeFile, hstat, hl, hc]
    · intro f hl hc ho
      simp [MemFS.writeFile, hstat, hl, hc, ho]
    · intro f hl hco
      obtain ⟨t', hok, hr⟩ := hpw.2 (by simp [hl, isDirEntry])
      refine ⟨t', ?_, hr⟩
      have hcase : (create && !overwrite) = false := by
        rcases hco with hc | ho
        · simp [hc]
        · simp [ho]
      simp [MemFS.writeFile, hstat, hl, hcase, hok, Except.map]
    · intro hl hc
      obtain ⟨t', hok, hr⟩ := hpw.2 (by simp [hl, isDirEntry])
      refine ⟨t', ?_, hr⟩
      simp [MemFS.writeFile, hstat, hl, hc, hok, List.dropLast_concat, Except.map]
  · intro ch pch ps n data create overwrite h
    have hgo := NativeFS.writeFileGo_spec ps ch pch n data create overwrite h
    refine ⟨?_, ?_, ?_, ?_, ?_⟩
    · intro hl hc
      simp [NativeFS.writeFile, hgo.1 hl hc, Except.map]
    · intro e hl hc ho
      simp [NativeFS.writeFile, hgo.2.1 e hl hc ho, Except.map]
    · intro d hl hco
      simp [NativeFS.writeFile, hgo.2.2.1 d hl hco, Except.map]
    · intro f hl hco
      obtain ⟨ch', hok, hr⟩ := hgo.2.2.2.1 f hl hco
      exact ⟨ch', by simp [NativeFS.writeFile, hok, Except.map], hr⟩
    · intro hl hc
      obtain ⟨ch', hok, hr⟩ := hgo.2.2.2.2 hl hc
      exact ⟨ch', by simp [NativeFS.writeFile, hok, Except.map], hr⟩

/-- Witness for C1: concrete instances of the corrected policy — on the
in-memory backend a fresh create under the existing root emits the parent
`Changed` then `Created`/`Changed` and the data reads back, and on the
native backend writing over an existing directory entry with
`{create: true, overwrite: false}` fails `AlreadyExists`. -/
theorem writeFile_policy_witness :
    resolve (FsEntry.dir [("d", .dir [])]) [] = some (.dir [("d", .dir [])]) ∧
    (∃ t', MemFS.writeFile (.dir [("d", .dir [])]) ([] ++ ["f"]) [7] true false =
        .ok (t', [(.Changed, []), (.Created, [] ++ ["f"]), (.Changed, [] ++ ["f"])]) ∧
      resolve t' ([] ++ ["f"]) = some (.file [7])) ∧
    NativeFS.writeFile [("d", FsEntry.dir [])] ([] ++ ["d"]) [1] true false =
      .error .AlreadyExists :=
  ⟨rfl,
   (writeFile_policy.1 (.dir [("d", .dir [])]) [("d", .dir [])] [] "f" [7] true false
      rfl).2.2.2.2 rfl rfl,
   (writeFile_policy.2 [("d", .dir [])] [("d", .dir [])] [] "d" [1] true false
      rfl).2.1 (.dir []) rfl rfl rfl⟩

/-! ## Claim C5: rename onto an existing target without overwrite -/

/-- **C5 counterexample**.  The native backend's `rename` reads the source
first: with the target `b.txt` present but the source `a.txt` absent, the
call fails `NotFound` (from `readFile`), not `AlreadyExists` as the claim —
quantified over *every* pair of paths with an existing target — requires. -/
theorem native_rename_missing_source_not_alreadyExists :
    NativeFS.rename [("b.txt", .file [7])] ["a.txt"] ["b.txt"] false =
      .error .NotFound ∧
    FsErrorKind.NotFound ≠ FsErrorKind.AlreadyExists :=
  ⟨rfl, by decide⟩

/-- **C5** (corrected).  When the target path already exists and
`overwrite` is false: the in-memory backend fails `AlreadyExists`
unconditionally (it checks the target first); the native backend fails
`AlreadyExists` provided the source is an existing file — it reads the
source before checking the target, so a missing source fails `NotFound`
instead (see the counterexample).  In every such failure nothing has been
deleted or written: the backend state is unchanged — the failure happens
before the copy/delete steps — so a subsequent `readFile` of the source
returns the same bytes (last conjunct). -/
theorem rename_existing_target_no_overwrite :
    (∀ (t : FsEntry) (aP bP : List String),
      (resolve t bP).isSome = true →
      MemFS.rename t aP bP false = .error .AlreadyExists) ∧
    (∀ (ch : NativeFS.NativeDir) (aP bPs : List String) (bn : String)
        (da : List Nat) (be : FsEntry),
      resolve (.dir ch) aP = some (.file da) →
      resolve (.dir ch) (bPs ++ [bn]) = some be →
      NativeFS.rename ch aP (bPs ++ [bn]) false = .error .AlreadyExists ∧
        NativeFS.readFile ch aP = .ok da) := by
  constructor
  · intro t aP bP hb
    simp [MemFS.rename, hb]
  · intro ch aP bPs bn da be ha hb
    have hread : NativeFS.readFile ch aP = .ok da := NativeFS.readFile_of_resolve aP ch da ha
    rw [resolve_append] at hb
    rcases hpe : resolve (.dir ch) bPs with _ | pe
    · rw [hpe] at hb; simp at hb
    · rw [hpe] at hb
      cases pe with
      | file f => simp at hb
      | dir pch =>
        have hl : lookupChild pch bn = some be := by simpa using hb
        have hw : NativeFS.writeFile ch (bPs ++ [bn]) da true false = .error .AlreadyExists := by
          have := (NativeFS.writeFileGo_spec bPs ch pch bn da true false hpe).2.1 be hl rfl rfl
          simp [NativeFS.writeFile, this, Except.map]
        refine ⟨?_, hread⟩
        simp [NativeFS.rename, hread, hw, Bind.bind, Except.bind]

/-- Witness for C5: with the in-memory tree holding `b` and the native root
holding the file `a.txt` and an entry `b.txt`, both backends fail
`AlreadyExists` and the native source still reads back unchanged. -/
theorem rename_existing_target_no_overwrite_witness :
    (resolve (FsEntry.dir [("b", .file [1])]) ["b"]).isSome = true ∧
    MemFS.rename (.dir [("b", .file [1])]) ["a"] ["b"] false = .error .AlreadyExists ∧
    resolve (FsEntry.dir [("a.txt", .file [5]), ("b.txt", .file [6])]) ["a.txt"] =
      some (.file [5]) ∧
    resolve (FsEntry.dir [("a.txt", .file [5]), ("b.txt", .file [6])]) ([] ++ ["b.txt"]) =
      some (.file [6]) ∧
    NativeFS.rename [("a.txt", .file [5]), ("b.txt", .file [6])] ["a.txt"]
      ([] ++ ["b.txt"]) false = .error .AlreadyExists ∧
    NativeFS.readFile [("a.txt", .file [5]), ("b.txt", .file [6])] ["a.txt"] = .ok [5] := by
  refine ⟨rfl, ?_, rfl, rfl, ?_, ?_⟩
  · exact rename_existing_target_no_overwrite.1 (.dir [("b", .file [1])]) ["a"] ["b"] rfl
  · exact (rename_existing_target_no_overwrite.2 [("a.txt", .file [5]), ("b.txt", .file [6])]
      ["a.txt"] [] "b.txt" [5] (.file [6]) rfl rfl).1
  · exact (rename_existing_target_no_overwrite.2 [("a.txt", .file [5]), ("b.txt", .file [6])]
      ["a.txt"] [] "b.txt" [5] (.file [6]) rfl rfl).2

/-! ## Claim C9: createDirectory idempotence -/

theorem MemFS.pfsMkdir_resolve :
    ∀ (p : List String) (t t' : FsEntry),
    MemFS.pfsMkdir t p = .ok t' → resolve t' p = some (.dir []) := by
  intro p
  induction p with
  | nil => intro t t' h; simp [MemFS.pfsMkdir] at h
  | cons c rest ih =>
    intro t t' h
    cases t with
    | file f => simp [MemFS.pfsMkdir] at h
    | dir ch =>
      cases rest with
      | nil =>
        rcases hl : lookupChild ch c with _ | e
        · simp only [MemFS.pfsMkdir, hl, Except.ok.injEq] at h
          subst h
          simp [resolve, lookupChild_setChild_self]
        · simp [MemFS.pfsMkdir, hl] at h
      | cons c2 rest' =>
        rcases hl : lookupChild ch c with _ | sub
        · simp [MemFS.pfsMkdir, hl] at h
        · simp only [MemFS.pfsMkdir, hl] at h
          rcases hrec : MemFS.pfsMkdir sub (c2 :: rest') with e | sub'
          · rw [hrec] at h; simp [Except.map] at h
          · rw [hrec] at h
            simp only [Except.map, Except.ok.injEq] at h
            subst h
            simp [resolve, lookupChild_setChild_self, ih sub sub' hrec]

theorem MemFS.mkdirpGo_exists :
    ∀ (fuel : Nat) (t : FsEntry) (p : List String) (t' : FsEntry) (ev : List ChangeEvent),
    MemFS.mkdirpGo fuel t p = .ok (t', ev) → MemFS.memExists t' p = true := by
  intro fuel
  induction fuel with
  | zero =>
    intro t p t' ev h
    by_cases he : MemFS.memExists t p
    · rw [MemFS.mkdirpGo] at h
      simp only [if_pos he, Except.ok.injEq, Prod.mk.injEq] at h
      obtain ⟨h1, -⟩ := h
      exact h1 ▸ he
    · rw [MemFS.mkdirpGo] at h
      simp [if_neg he] at h
  | succ fuel ih =>
    intro t p t' ev h
    by_cases he : MemFS.memExists t p
    · rw [MemFS.mkdirpGo] at h
      simp only [if_pos he, Except.ok.injEq, Prod.mk.injEq] at h
      obtain ⟨h1, -⟩ := h
      exact h1 ▸ he
    · rw [MemFS.mkdirpGo] at h
      simp only [if_neg he] at h
      rcases hrec : MemFS.mkdirpGo fuel t p.dropLast with e | r1
      · rw [hrec] at h
        simp [Bind.bind, Except.bind] at h
      · obtain ⟨t1, ev1⟩ := r1
        rw [hrec] at h
        simp only [Bind.bind, Except.bind] at h
        rcases hmk : MemFS.pfsMkdir t1 p with e | t2
        · rw [hmk] at h
          simp at h
        · rw [hmk] at h
          simp only [Except.ok.injEq, Prod.mk.injEq] at h
          obtain ⟨h1, -⟩ := h
          rw [← h1]
          simp [MemFS.memExists, MemFS.pfsMkdir_resolve p t1 t2 hmk]

theorem NativeFS.createDirectoryGo_idem :
    ∀ (p : List String) (ch ch' : NativeFS.NativeDir),
    NativeFS.createDirectoryGo ch p = .ok ch' →
    NativeFS.createDirectoryGo ch' p = .ok ch' := by
  intro p
  induction p with
  | nil =>
    intro ch ch' h
    simp only [NativeFS.createDirectoryGo, Except.ok.injEq] at h
    subst h
    rfl
  | cons c rest ih =>
    intro ch ch' h
    rcases hl : lookupChild ch c with _ | sub
    · simp only [NativeFS.createDirectoryGo, hl] at h
      rcases hrec : NativeFS.createDirectoryGo [] rest with e | sub'
      · rw [hrec] at h; simp [Except.map] at h
      · rw [hrec] at h
        simp only [Except.map, Except.ok.injEq] at h
        subst h
        simp only [NativeFS.createDirectoryGo, lookupChild_setChild_self]
        rw [ih [] sub' hrec]
        simp [Except.map, setChild_setChild]
    · cases sub with
      | file f =>
        simp [NativeFS.createDirectoryGo, hl] at h
      | dir sub =>
        simp only [NativeFS.createDirectoryGo, hl] at h
        rcases hrec : NativeFS.createDirectoryGo sub rest with e | sub'
        · rw [hrec] at h; simp [Except.map] at h
        · rw [hrec] at h
          simp only [Except.map, Except.ok.injEq] at h
          subst h
          simp only [NativeFS.createDirectoryGo, lookupChild_setChild_self]
          rw [ih sub sub' hrec]
          simp [Except.map, setChild_setChild]

theorem NativeFS.createDirectoryGo_ancestors :
    ∀ (p : List String) (ch ch' : NativeFS.NativeDir),
    NativeFS.createDirectoryGo ch p = .ok ch' →
    ∀ k, k ≤ p.length → ∃ d, resolve (.dir ch') (p.take k) = some (.dir d) := by
  intro p
  induction p with
  | nil =>
    intro ch ch' h k hk
    simp only [NativeFS.createDirectoryGo, Except.ok.injEq] at h
    subst h
    have hk0 : k = 0 := Nat.le_zero.mp (by simpa using hk)
    subst hk0
    exact ⟨ch, rfl⟩
  | cons c rest ih =>
    intro ch ch' h k hk
    have step : ∀ (sub0 sub' : NativeFS.NativeDir),
        NativeFS.createDirectoryGo sub0 rest = .ok sub' →
        ch' = setChild ch c (.dir sub') →
        ∃ d, resolve (.dir ch') ((c :: rest).take k) = some (.dir d) := by
      intro sub0 sub' hrec hch'
      subst hch'
      cases k with
      | zero => exact ⟨setChild ch c (.dir sub'), rfl⟩
      | succ k' =>
        obtain ⟨d, hd⟩ := ih sub0 sub' hrec k' (by simpa using hk)
        refine ⟨d, ?_⟩
        simp [resolve, lookupChild_setChild_self, hd]
    rcases hl : lookupChild ch c with _ | sub
    · simp only [NativeFS.createDirectoryGo, hl] at h
      rcases hrec : NativeFS.createDirectoryGo [] rest with e | sub'
      · rw [hrec] at h; simp [Except.map] at h
      · rw [hrec] at h
        simp only [Except.map, Except.ok.injEq] at h
        exact step [] sub' hrec h.symm
    · cases sub with
      | file f =>
        simp [NativeFS.createDirectoryGo, hl] at h
      | dir sub =>
        simp only [NativeFS.createDirectoryGo, hl] at h
        rcases hrec : NativeFS.createDirectoryGo sub rest with e | sub'
        · rw [hrec] at h; simp [Except.map] at h
        · rw [hrec] at h
          simp only [Except.map, Except.ok.injEq] at h
          exact step sub sub' hrec h.symm

/-- **C9 counterexample**.  With a file `f` at the root of a native backend,
`createDirectory("/f")` fails (`getDirectoryHandle` raises the handle
type-mismatch error) — and since the failed call mutates nothing, calling it
a second time fails identically: the claim's "the second call completes
without error", quantified over every path, is false on the native
backend. -/
theorem native_createDirectory_file_blocked_twice_errors :
    (NativeFS.createDirectory [("f", FsEntry.file [])] ["f"]).bind
      (fun r => NativeFS.createDirectory r.1 ["f"]) = .error .TypeMismatch ∧
    NativeFS.createDirectory [("f", FsEntry.file [])] ["f"] = .error .TypeMismatch :=
  ⟨rfl, rfl⟩

/-- **C9** (corrected).  `createDirectory` is idempotent on both backends
*for calls that succeed*: after a successful `createDirectory(p)`, repeating
the call succeeds, leaves the tree unchanged, and every ancestor of `p`
exists as a directory (on the native backend `p` itself as well; the
in-memory `mkdirp` is a silent no-op even when `p` exists as a file, so only
its proper ancestors are guaranteed directories).  The repeated in-memory
call emits no events; the repeated native call returns the same
`Changed`/`Created` event payload again.  When the first call fails —
a path component held by an existing file — nothing is created and the
second call fails identically (see the counterexample), which is the part
of the claim that is false as stated. -/
theorem createDirectory_idempotent :
    (∀ (t : FsEntry) (p : List String) (t' : FsEntry) (ev : List ChangeEvent),
      MemFS.createDirectory t p = .ok (t', ev) →
      MemFS.createDirectory t' p = .ok (t', []) ∧
        ∀ k, k < p.length → ∃ d, resolve t' (p.take k) = some (.dir d)) ∧
    (∀ (ch : NativeFS.NativeDir) (p : List String) (ch' : NativeFS.NativeDir)
        (ev : List ChangeEvent),
      NativeFS.createDirectory ch p = .ok (ch', ev) →
      NativeFS.createDirectory ch' p = .ok (ch', ev) ∧
        ∀ k, k ≤ p.length → ∃ d, resolve (.dir ch') (p.take k) = some (.dir d)) := by
  constructor
  · intro t p t' ev h
    have he : MemFS.memExists t' p = true :=
      MemFS.mkdirpGo_exists p.length t p t' ev h
    constructor
    · show MemFS.mkdirpGo p.length t' p = .ok (t', [])
      rw [MemFS.mkdirpGo.eq_def]
      simp [if_pos he]
    · intro k hk
      obtain ⟨e, hee⟩ := Option.isSome_iff_exists.mp (by simpa [MemFS.memExists] using he)
      exact resolve_take_isDir t' p e hee k hk
  · intro ch p ch' ev h
    rcases hgo : NativeFS.createDirectoryGo ch p with e | ch0
    · rw [NativeFS.createDirectory, hgo] at h
      simp [Except.map] at h
    · rw [NativeFS.createDirectory, hgo] at h
      simp only [Except.map, Except.ok.injEq, Prod.mk.injEq] at h
      obtain ⟨hch, hev⟩ := h
      have hidem := NativeFS.createDirectoryGo_idem p ch ch0 hgo
      constructor
      · rw [NativeFS.createDirectory, ← hch, hidem]
        simp [Except.map, ← hev]
      · exact hch ▸ NativeFS.createDirectoryGo_ancestors p ch ch0 hgo

/-- Witness for C9: after creating `/a/b` in an empty in-memory tree the
second call is a silent no-op with the same final tree, and after creating
`/x/y` on an empty native root the second call succeeds with the same tree
and event payload. -/
theorem createDirectory_idempotent_witness :
    MemFS.createDirectory (.dir []) ["a", "b"] =
      .ok (.dir [("a", .dir [("b", .dir [])])],
        [(.Changed, []), (.Created, ["a"]), (.Changed, ["a"]), (.Created, ["a", "b"])]) ∧
    MemFS.createDirectory (.dir [("a", .dir [("b", .dir [])])]) ["a", "b"] =
      .ok (.dir [("a", .dir [("b", .dir [])])], []) ∧
    NativeFS.createDirectory [] ["x", "y"] =
      .ok ([("x", .dir [("y", .dir [])])], [(.Changed, ["x"]), (.Created, ["x", "y"])]) ∧
    NativeFS.createDirectory [("x", .dir [("y", .dir [])])] ["x", "y"] =
      .ok ([("x", .dir [("y", .dir [])])], [(.Changed, ["x"]), (.Created, ["x", "y"])]) := by
  refine ⟨rfl, ?_, rfl, ?_⟩
  · exact (createDirectory_idempotent.1 (.dir []) ["a", "b"]
      (.dir [("a", .dir [("b", .dir [])])])
      [(.Changed, []), (.Created, ["a"]), (.Changed, ["a"]), (.Created, ["a", "b"])] rfl).1
  · exact (createDirectory_idempotent.2 [] ["x", "y"] [("x", .dir [("y", .dir [])])]
      [(.Changed, ["x"]), (.Created, ["x", "y"])] rfl).1

/-! ## Claim C3: binary and unreadable files during text search -/

/-- **C3 counterexample**.  With a root whose listing succeeds (the walk
starts) but whose single file's `readFile` rejects, the whole
`provideTextSearch` rejects: a per-file read failure is *not* absorbed —
only binary files are skipped silently. -/
theorem provideTextSearch_per_file_error_propagates :
    provideTextSearch badReadSearchFs noBinDetector demoQuery [] [] noCancel 2 [] =
      .error .Unknown ∧
    badReadSearchFs.readDirectory [] = .ok [("bad.txt", .file)] ∧
    badReadSearchFs.readFile ["bad.txt"] = .error .Unknown :=
  ⟨rfl, rfl, rfl⟩

/-- **C3** (corrected).  For a file reached by the walk (cancellation not
requested at its check): if its bytes are read successfully and the
detector classifies it as binary — by extension (`byName` or the `.asar`
rule) or by content sampling — the scan of that file contributes no matches
and no error; but if reading the file fails, the failure propagates out of
the per-file scan (and hence, via the walk, out of `provideTextSearch`):
the claim's "a binary or unreadable file never causes the search to fail"
holds only for the binary half. -/
theorem searchFile_binary_skipped_error_propagates :
    (∀ (fs : SearchFs) (det : BinDetector) (q : TextQuery) (tok : Nat → Bool)
        (c : Nat) (p : List String) (content : List Nat),
      tok c = false →
      fs.readFile p = .ok content →
      (det.byName p || endsWithAsar p || det.byContent content) = true →
      searchFile fs det q tok c p = .ok ([], c + 1)) ∧
    (∀ (fs : SearchFs) (det : BinDetector) (q : TextQuery) (tok : Nat → Bool)
        (c : Nat) (p : List String) (e : FsErrorKind),
      tok c = false →
      fs.readFile p = .error e →
      searchFile fs det q tok c p = .error e) := by
  constructor
  · intro fs det q tok c p content htok hread hbin
    by_cases hname : (det.byName p || endsWithAsar p) = true
    · simp [searchFile, isFileBinary, htok, hname, hread, Except.map]
    · have hcontent : det.byContent content = true := by
        rcases Bool.or_eq_true_iff.mp hbin with h1 | h2
        · exact absurd (Bool.or_eq_true_iff.mpr (Bool.or_eq_true_iff.mp h1)) hname
        · exact h2
      simp [searchFile, isFileBinary, htok, hname, hread, hcontent, Except.map]
  · intro fs det q tok c p e htok hread
    by_cases hname : (det.byName p || endsWithAsar p) = true
    · simp [searchFile, isFileBinary, htok, hname, hread, Except.map]
    · simp [searchFile, isFileBinary, htok, hname, hread, Except.map]

/-- Witness for C3: a file flagged binary by extension is skipped silently,
and a file whose read rejects propagates its error. -/
theorem searchFile_binary_skipped_error_propagates_witness :
    (noCancel 0 = false ∧
      (SearchFs.readFile ⟨fun _ => .ok [], fun _ => .ok [0, 159]⟩ ["img.png"] = .ok [0, 159]) ∧
      ((BinDetector.byName ⟨fun p => p = ["img.png"], fun _ => false⟩ ["img.png"] ||
          endsWithAsar ["img.png"] ||
          BinDetector.byContent ⟨fun p => p = ["img.png"], fun _ => false⟩ [0, 159]) = true) ∧
      searchFile ⟨fun _ => .ok [], fun _ => .ok [0, 159]⟩
        ⟨fun p => p = ["img.png"], fun _ => false⟩ demoQuery noCancel 0 ["img.png"] =
        .ok ([], 0 + 1)) ∧
    (noCancel 0 = false ∧
      badReadSearchFs.readFile ["bad.txt"] = .error .Unknown ∧
      searchFile badReadSearchFs noBinDetector demoQuery noCancel 0 ["bad.txt"] =
        .error .Unknown) := by
  refine ⟨⟨rfl, rfl, by decide, ?_⟩, ⟨rfl, rfl, ?_⟩⟩
  · exact searchFile_binary_skipped_error_propagates.1
      ⟨fun _ => .ok [], fun _ => .ok [0, 159]⟩
      ⟨fun p => p = ["img.png"], fun _ => false⟩ demoQuery noCancel 0 ["img.png"] [0, 159]
      rfl rfl (by decide)
  · exact searchFile_binary_skipped_error_propagates.2 badReadSearchFs noBinDetector
      demoQuery noCancel 0 ["bad.txt"] .Unknown rfl rfl

/-! ## Claim C7: cooperative cancellation of the text search -/

theorem searchFile_tok_of_full (fs : SearchFs) (det : BinDetector) (q : TextQuery)
    (tok : Nat → Bool) (c c' : Nat) (p : List String) (ms : List SearchMatch) (cF : Nat)
    (h : searchFile fs det q noCancel c p = .ok (ms, cF))
    (htok : tok c' = false) :
    searchFile fs det q tok c' p = .ok (ms, c' + 1) := by
  rw [searchFile] at h ⊢
  rw [htok]
  simp only [noCancel, Bool.false_eq_true, if_false] at h
  rcases hb : isFileBinary fs det p with e | r
  · rw [hb] at h; simp at h
  · rw [hb] at h
    obtain ⟨bin, content⟩ := r
    cases bin with
    | true =>
      simp only [if_true, Bool.false_eq_true, if_false, Except.ok.injEq, Prod.mk.injEq,
        and_true] at h ⊢
      exact h.1
    | false =>
      simp only [if_true, Bool.false_eq_true, if_false, Except.ok.injEq, Prod.mk.injEq,
        and_true] at h ⊢
      exact h.1

theorem searchEntries_sublist
    (subF subT fileF fileT : Nat → List String → Except FsErrorKind (List SearchMatch × Nat))
    (incls excls : List (List String → Bool)) (dir : List String)
    (hsub : ∀ c c' dir' full cF, subF c dir' = .ok (full, cF) →
      ∃ ms c₂, subT c' dir' = .ok (ms, c₂) ∧ ms.Sublist full)
    (hfile : ∀ c c' p full cF, fileF c p = .ok (full, cF) →
      ∃ ms c₂, fileT c' p = .ok (ms, c₂) ∧ ms.Sublist full) :
    ∀ (entries : List (String × VsFileType)) (c c' : Nat)
      (full : List SearchMatch) (cF : Nat),
    searchEntries subF fileF incls excls dir c entries = .ok (full, cF) →
    ∃ ms c₂, searchEntries subT fileT incls excls dir c' entries = .ok (ms, c₂) ∧
      ms.Sublist full := by
  intro entries
  induction entries with
  | nil =>
    intro c c' full cF h
    simp only [searchEntries, Except.ok.injEq, Prod.mk.injEq] at h
    exact ⟨[], c', rfl, h.1 ▸ List.nil_sublist full⟩
  | cons ent rest ih =>
    intro c c' full cF h
    obtain ⟨name, ft⟩ := ent
    simp only [searchEntries] at h ⊢
    by_cases hex : excls.any (fun e => e (dir ++ [name])) = true
    · rw [if_pos hex] at h ⊢
      exact ih c c' full cF h
    · rw [if_neg hex] at h ⊢
      by_cases hinc : (!incls.isEmpty && !incls.any (fun e => e (dir ++ [name]))) = true
      · rw [if_pos hinc] at h ⊢
        exact ih c c' full cF h
      · rw [if_neg hinc] at h ⊢
        by_cases hft : ft = VsFileType.file
        · rw [if_pos hft] at h ⊢
          rcases hf : fileF c (dir ++ [name]) with e | ⟨msF, c1⟩
          · rw [hf] at h; simp [Except.bind] at h
          · rw [hf] at h
            simp only [Except.bind] at h
            rcases hr : searchEntries subF fileF incls excls dir c1 rest with e2 | ⟨ms2F, c2F⟩
            · rw [hr] at h; simp [Except.map] at h
            · rw [hr] at h
              simp only [Except.map, Except.ok.injEq, Prod.mk.injEq] at h
              obtain ⟨hfull, -⟩ := h
              obtain ⟨msT, cT, hfT, hsubT⟩ := hfile c c' (dir ++ [name]) msF c1 hf
              obtain ⟨ms2T, c2T, hrT, hsub2T⟩ := ih c1 cT ms2F c2F hr
              refine ⟨msT ++ ms2T, c2T, ?_, ?_⟩
              · rw [hfT]
                simp only [Except.bind]
                rw [hrT]
                simp [Except.map]
              · rw [← hfull]
                exact hsubT.append hsub2T
        · rw [if_neg hft] at h ⊢
          by_cases hfd : ft = VsFileType.directory
          · rw [if_pos hfd] at h ⊢
            rcases hf : subF c (dir ++ [name]) with e | ⟨msF, c1⟩
            · rw [hf] at h; simp [Except.bind] at h
            · rw [hf] at h
              simp only [Except.bind] at h
              rcases hr : searchEntries subF fileF incls excls dir c1 rest with e2 | ⟨ms2F, c2F⟩
              · rw [hr] at h; simp [Except.map] at h
              · rw [hr] at h
                simp only [Except.map, Except.ok.injEq, Prod.mk.injEq] at h
                obtain ⟨hfull, -⟩ := h
                obtain ⟨msT, cT, hfT, hsubT⟩ := hsub c c' (dir ++ [name]) msF c1 hf
                obtain ⟨ms2T, c2T, hrT, hsub2T⟩ := ih c1 cT ms2F c2F hr
                refine ⟨msT ++ ms2T, c2T, ?_, ?_⟩
                · rw [hfT]
                  simp only [Except.bind]
                  rw [hrT]
                  simp [Except.map]
                · rw [← hfull]
                  exact hsubT.append hsub2T
          · rw [if_neg hfd] at h ⊢
            exact ih c c' full cF h

/-- **C7** (confirmed).  The cancellation token is checked at every
directory boundary and before every file scan, and each check happens
before any work: a directory call whose check observes cancellation returns
immediately — no `readDirectory`, no recursion, no results (first
conjunct); a file call whose check observes cancellation starts no scan and
reports nothing (second conjunct); and whatever a cancelled run reports is
a sublist — a subset, in report order — of what the uncancelled run over
the same tree reports (third conjunct). -/
theorem searchText_cancellation :
    (∀ (fs : SearchFs) (det : BinDetector) (q : TextQuery)
        (incls excls : List (List String → Bool)) (tok : Nat → Bool)
        (fuel ctr : Nat) (dir : List String),
      tok ctr = true →
      searchTextGo fs det q incls excls tok (fuel + 1) ctr dir = .ok ([], ctr + 1)) ∧
    (∀ (fs : SearchFs) (det : BinDetector) (q : TextQuery) (tok : Nat → Bool)
        (c : Nat) (p : List String),
      tok c = true → searchFile fs det q tok c p = .ok ([], c + 1)) ∧
    (∀ (fs : SearchFs) (det : BinDetector) (q : TextQuery)
        (incls excls : List (List String → Bool)) (tok : Nat → Bool)
        (fuel ctr ctr' : Nat) (dir : List String)
        (full : List SearchMatch) (cF : Nat),
      searchTextGo fs det q incls excls noCancel fuel ctr dir = .ok (full, cF) →
      ∃ ms c₂, searchTextGo fs det q incls excls tok fuel ctr' dir = .ok (ms, c₂) ∧
        ms.Sublist full) := by
  refine ⟨?_, ?_, ?_⟩
  · intro fs det q incls excls tok fuel ctr dir htok
    simp [searchTextGo, htok]
  · intro fs det q tok c p htok
    simp [searchFile, htok]
  · intro fs det q incls excls tok fuel
    induction fuel with
    | zero =>
      intro ctr ctr' dir full cF h
      simp [searchTextGo] at h
    | succ fuel ih =>
      intro ctr ctr' dir full cF h
      rw [searchTextGo] at h
      simp only [noCancel, Bool.false_eq_true, if_false] at h
      rcases hrd : fs.readDirectory dir with e | entries
      · rw [hrd] at h; simp [Except.bind] at h
      · rw [hrd] at h
        simp only [Except.bind] at h
        by_cases htok : tok ctr' = true
        · exact ⟨[], ctr' + 1, by simp [searchTextGo, htok], List.nil_sublist full⟩
        · rw [Bool.not_eq_true] at htok
          have hfile : ∀ c c' p fullf cFf,
              searchFile fs det q noCancel c p = .ok (fullf, cFf) →
              ∃ ms c₂, searchFile fs det q tok c' p = .ok (ms, c₂) ∧ ms.Sublist fullf := by
            intro c c' p fullf cFf hf
            by_cases ht : tok c' = true
            · exact ⟨[], c' + 1, by simp [searchFile, ht], List.nil_sublist fullf⟩
            · rw [Bool.not_eq_true] at ht
              exact ⟨fullf, c' + 1,
                searchFile_tok_of_full fs det q tok c c' p fullf cFf hf ht,
                List.Sublist.refl fullf⟩
          obtain ⟨ms, c₂, hT, hs⟩ :=
            searchEntries_sublist (searchTextGo fs det q incls excls noCancel fuel)
              (searchTextGo fs det q incls excls tok fuel)
              (searchFile fs det q noCancel) (searchFile fs det q tok)
              incls excls dir
              (fun c c' dir' fulld cFd hd => ih c c' dir' fulld cFd hd)
              hfile entries (ctr + 1) (ctr' + 1) full cF h
          refine ⟨ms, c₂, ?_, hs⟩
          rw [searchTextGo]
          simp only [htok, Bool.false_eq_true, if_false]
          rw [hrd]
          simp only [Except.bind]
          exact hT

/-- Witness for C7: over the demo tree the uncancelled run reports the two
`hello` matches; a run whose token trips after the first check reports a
sublist of them; a cancelled directory call and a cancelled file call
return immediately with no results. -/
theorem searchText_cancellation_witness :
    searchTextGo demoSearchFs noBinDetector demoQuery [] [] noCancel 2 0 [] =
      .ok ([⟨["f.txt"], 0, 0, 5, "hello"⟩, ⟨["f.txt"], 2, 0, 5, "hello again"⟩], 2) ∧
    (∃ ms c₂,
      searchTextGo demoSearchFs noBinDetector demoQuery [] []
          (fun i => decide (1 ≤ i)) 2 0 [] = .ok (ms, c₂) ∧
      ms.Sublist [⟨["f.txt"], 0, 0, 5, "hello"⟩, ⟨["f.txt"], 2, 0, 5, "hello again"⟩]) ∧
    ((fun _ => true : Nat → Bool) 5 = true ∧
      searchTextGo demoSearchFs noBinDetector demoQuery [] [] (fun _ => true) 1 5 [] =
        .ok ([], 5 + 1)) ∧
    ((fun _ => true : Nat → Bool) 3 = true ∧
      searchFile demoSearchFs noBinDetector demoQuery (fun _ => true) 3 ["f.txt"] =
        .ok ([], 3 + 1)) := by
  refine ⟨rfl, ?_, ⟨rfl, ?_⟩, ⟨rfl, ?_⟩⟩
  · exact searchText_cancellation.2.2 demoSearchFs noBinDetector demoQuery [] []
      (fun i => decide (1 ≤ i)) 2 0 0 []
      [⟨["f.txt"], 0, 0, 5, "hello"⟩, ⟨["f.txt"], 2, 0, 5, "hello again"⟩] 2 rfl
  · exact searchText_cancellation.1 demoSearchFs noBinDetector demoQuery [] []
      (fun _ => true) 0 5 [] rfl
  · exact searchText_cancellation.2.1 demoSearchFs noBinDetector demoQuery
      (fun _ => true) 3 ["f.txt"] rfl

/-! ## Claim C4: structure of the compiled file-search pattern -/

theorem joinDotStar_append_flat :
    ∀ (p : List Char), p ≠ [] →
    joinDotStar p ++ ['.', '*'] = p.flatMap (fun c => [c, '.', '*']) := by
  intro p
  induction p with
  | nil => intro h; exact absurd rfl h
  | cons c rest ih =>
    intro _
    cases rest with
    | nil => rfl
    | cons c2 rest' =>
      have hrec := ih (by simp)
      simp only [joinDotStar, List.flatMap_cons, List.cons_append, List.nil_append] at hrec ⊢
      rw [hrec]

theorem noDotStarStar_joinDotStar :
    ∀ (p : List Char), '*' ∉ p →
    noDotStarStar (joinDotStar p) = true ∧
      noDotStarStar ('.' :: '*' :: joinDotStar p) = true := by
  intro p
  induction p with
  | nil => intro _; exact ⟨rfl, rfl⟩
  | cons c rest ih =>
    intro hmem
    have hc : c ≠ '*' := fun h => hmem (h ▸ List.mem_cons_self c rest)
    have hcb : (c == '*') = false := beq_eq_false_iff_ne.mpr hc
    have hrest : '*' ∉ rest := fun h => hmem (List.mem_cons_of_mem c h)
    cases rest with
    | nil =>
      constructor
      · rfl
      · show noDotStarStar ['.', '*', c] = true
        rw [noDotStarStar]
        simp only [hcb, Bool.and_false, Bool.false_eq_true, if_false]
        rfl
    | cons c2 rest' =>
      obtain ⟨ih1, ih2⟩ := ih hrest
      have g1 : noDotStarStar (joinDotStar (c :: c2 :: rest')) = true := by
        show noDotStarStar (c :: '.' :: '*' :: joinDotStar (c2 :: rest')) = true
        rw [noDotStarStar]
        simp only [show (('.' : Char) == '*') = false from rfl, Bool.and_false, Bool.false_and,
          Bool.and_self, if_false]
        exact ih2
      refine ⟨g1, ?_⟩
      show noDotStarStar ('.' :: '*' :: c :: '.' :: '*' :: joinDotStar (c2 :: rest')) = true
      rw [noDotStarStar]
      simp only [hcb, Bool.and_false, if_false]
      rw [noDotStarStar]
      simp only [show (('*' : Char) == '.') = false from rfl, Bool.false_and, if_false]
      exact g1

theorem collapseGo_id :
    ∀ (cs : List Char), noDotStarStar cs = true → ∀ fuel, collapseGo fuel cs = cs := by
  intro cs
  induction cs with
  | nil => intro _ fuel; cases fuel <;> rfl
  | cons c1 cs' ih =>
    intro h fuel
    cases fuel with
    | zero => rfl
    | succ fuel =>
      cases cs' with
      | nil => rfl
      | cons c2 cs'' =>
        cases cs'' with
        | nil => rfl
        | cons c3 rest =>
          rw [noDotStarStar] at h
          by_cases hcond : (c1 == '.' && c2 == '*' && c3 == '*') = true
          · rw [if_pos hcond] at h
            exact absurd h (by simp)
          · rw [if_neg hcond] at h
            rw [collapseGo, if_neg hcond]
            rw [ih h fuel]

theorem escapeGo_star_cons (X : List Char) :
    escapeGo ('*' :: X) = '*' :: escapeGo X := by
  cases X with
  | nil => rfl
  | cons x X' =>
    cases X' with
    | nil => rfl
    | cons y Z =>
      rw [escapeGo]
      simp only [show isEscSetChar '*' = false from rfl, Bool.false_and, if_false]
      rfl

theorem escapeGo_dotstar_cons (X : List Char) :
    escapeGo ('.' :: '*' :: X) = '.' :: '*' :: escapeGo X := by
  cases X with
  | nil => rfl
  | cons x X' =>
    rw [escapeGo]
    simp only [show (('*' : Char) == '.') = false from rfl, Bool.and_false, Bool.false_and,
      Bool.false_eq_true, if_false]
    rw [escapeGo_star_cons]

theorem escapeGo_flat :
    ∀ (p : List Char), escapeGo (p.flatMap (fun c => [c, '.', '*'])) = escFlat p := by
  intro p
  induction p with
  | nil => rfl
  | cons c rest ih =>
    simp only [List.flatMap_cons]
    show escapeGo (c :: '.' :: '*' :: rest.flatMap (fun c => [c, '.', '*'])) =
      escFlat (c :: rest)
    by_cases hesc : isEscSetChar c = true
    · rw [escapeGo]
      simp only [hesc, show (('.' : Char) == '.') = true from rfl,
        show (('*' : Char) == '*') = true from rfl, Bool.and_self, Bool.true_and, if_true]
      rw [ih]
      simp [escFlat, escUnit, hesc]
    · rw [escapeGo]
      simp only [hesc, Bool.false_and, if_false]
      rw [escapeGo_dotstar_cons, ih]
      simp [escFlat, escUnit, hesc]

theorem convert_eq_escFlat (p : List Char) (hstar : '*' ∉ p) (hne : p ≠ []) :
    (convertSimple2RegExpPattern (String.mk p)).toList = escFlat p := by
  show escapeGo (collapseGo (joinDotStar p).length (joinDotStar p) ++ ['.', '*']) = escFlat p
  rw [collapseGo_id (joinDotStar p) (noDotStarStar_joinDotStar p hstar).1]
  rw [joinDotStar_append_flat p hne]
  exact escapeGo_flat p

theorem parseAtom_length :
    ∀ (re : List Char) (a : Option Char) (rest : List Char),
    parseAtom re = some (a, rest) → rest.length < re.length := by
  intro re a rest h
  cases re with
  | nil => exact Option.noConfusion h
  | cons c rest0 =>
    rw [parseAtom.eq_def] at h
    split at h
    · exact Option.noConfusion h
    · next cc tl heq =>
      injection heq with he1 he2
      subst he1
      subst he2
      split at h
      · split at h
        · simp only [Option.some.injEq, Prod.mk.injEq] at h
          obtain ⟨-, h2⟩ := h
          subst h2
          simp only [List.length_cons]
          omega
        · exact Option.noConfusion h
      · split at h
        · simp only [Option.some.injEq, Prod.mk.injEq] at h
          obtain ⟨-, h2⟩ := h
          subst h2
          simp
        · split at h
          · exact Option.noConfusion h
          · simp only [Option.some.injEq, Prod.mk.injEq] at h
            obtain ⟨-, h2⟩ := h
            subst h2
            simp

theorem reAccept_stable (ci : Bool) :
    ∀ (n : Nat) (re s : List Char) (f g : Nat),
    re.length + s.length ≤ n → n < f → n < g →
    reAccept ci f re s = reAccept ci g re s := by
  intro n
  induction n with
  | zero =>
    intro re s f g hlen hf hg
    obtain ⟨a, rfl⟩ : ∃ a, f = a + 1 := ⟨f - 1, by omega⟩
    obtain ⟨b, rfl⟩ : ∃ b, g = b + 1 := ⟨g - 1, by omega⟩
    cases re with
    | nil => rfl
    | cons r re' => simp at hlen
  | succ n ih =>
    intro re s f g hlen hf hg
    obtain ⟨a, rfl⟩ : ∃ a, f = a + 1 := ⟨f - 1, by omega⟩
    obtain ⟨b, rfl⟩ : ∃ b, g = b + 1 := ⟨g - 1, by omega⟩
    cases re with
    | nil => rfl
    | cons r re' =>
      have hre : re'.length + 1 + s.length ≤ n + 1 := by
        simpa using hlen
      simp only [reAccept]
      rcases hpa : parseAtom (r :: re') with _ | ⟨a', rest⟩
      · simp only [hpa]
      · simp only [hpa]
        have hrlen : rest.length < re'.length + 1 := by
          simpa using parseAtom_length _ _ _ hpa
        by_cases hstar : rest.head? = some '*'
        · rw [if_pos hstar, if_pos hstar]
          have htl : rest.tail.length ≤ re'.length := by
            cases rest with
            | nil => simp
            | cons rc rest' =>
              simp only [List.length_cons] at hrlen
              simp only [List.tail_cons]
              omega
          have e1 : reAccept ci a rest.tail s = reAccept ci b rest.tail s :=
            ih rest.tail s a b (by omega) (by omega) (by omega)
          rw [e1]
          cases s with
          | nil => rfl
          | cons x s' =>
            have e2 : reAccept ci a (r :: re') s' = reAccept ci b (r :: re') s' :=
              ih (r :: re') s' a b
                (by simp only [List.length_cons] at hre ⊢; omega) (by omega) (by omega)
            show (reAccept ci b rest.tail (x :: s') ||
                (atomMatches ci a' x && reAccept ci a (r :: re') s')) =
              (reAccept ci b rest.tail (x :: s') ||
                (atomMatches ci a' x && reAccept ci b (r :: re') s'))
            rw [e2]
        · rw [if_neg hstar, if_neg hstar]
          cases s with
          | nil => rfl
          | cons x s' =>
            have e3 : reAccept ci a rest s' = reAccept ci b rest s' :=
              ih rest s' a b
                (by simp only [List.length_cons] at hre ⊢; omega) (by omega) (by omega)
            show (atomMatches ci a' x && reAccept ci a rest s') =
              (atomMatches ci a' x && reAccept ci b rest s')
            rw [e3]

theorem reAccept_fuel_norm (ci : Bool) (re s : List Char) (f : Nat)
    (hf : re.length + s.length < f) :
    reAccept ci f re s = reAccept ci (reFuel re s) re s :=
  reAccept_stable ci (re.length + s.length) re s f (reFuel re s) le_rfl hf
    (by unfold reFuel; omega)

theorem reAccept_dotstar_iff (R : List Char) :
    ∀ (s : List Char), (∀ c ∈ s, isLineTerminator c = false) →
    (reAccept true (reFuel ('.' :: '*' :: R) s) ('.' :: '*' :: R) s = true ↔
      ∃ k, reAccept true (reFuel R (List.drop k s)) R (List.drop k s) = true) := by
  intro s
  induction s with
  | nil =>
    intro _
    rw [reFuel]
    simp only [reAccept]
    have hpa : parseAtom ('.' :: '*' :: R) = some (none, '*' :: R) := rfl
    simp only [hpa]
    rw [if_pos (show ('*' :: R).head? = some '*' from rfl)]
    show (reAccept true (('.' :: '*' :: R).length + ([] : List Char).length) R [] || false)
        = true ↔ _
    rw [Bool.or_false]
    rw [reAccept_fuel_norm true R [] _ (by simp only [List.length_cons, List.length_nil]; omega)]
    constructor
    · intro h
      exact ⟨0, h⟩
    · rintro ⟨k, hk⟩
      simpa using hk
  | cons x s' ih =>
    intro hterm
    have hx : isLineTerminator x = false := hterm x (List.mem_cons_self x s')
    have hs' : ∀ c ∈ s', isLineTerminator c = false :=
      fun c hc => hterm c (List.mem_cons_of_mem x hc)
    rw [reFuel]
    simp only [reAccept]
    have hpa : parseAtom ('.' :: '*' :: R) = some (none, '*' :: R) := rfl
    simp only [hpa]
    rw [if_pos (show ('*' :: R).head? = some '*' from rfl)]
    show (reAccept true (('.' :: '*' :: R).length + (x :: s').length) R (x :: s') ||
        (atomMatches true none x &&
          reAccept true (('.' :: '*' :: R).length + (x :: s').length) ('.' :: '*' :: R) s'))
        = true ↔ _
    rw [show atomMatches true none x = !isLineTerminator x from rfl, hx]
    simp only [Bool.not_false, Bool.true_and]
    rw [reAccept_fuel_norm true R (x :: s') (('.' :: '*' :: R).length + (x :: s').length)
      (by simp only [List.length_cons]; omega)]
    rw [reAccept_fuel_norm true ('.' :: '*' :: R) s' (('.' :: '*' :: R).length + (x :: s').length)
      (by simp only [List.length_cons]; omega)]
    rw [Bool.or_eq_true]
    rw [ih hs']
    constructor
    · rintro (h | ⟨k, hk⟩)
      · exact ⟨0, by simpa using h⟩
      · exact ⟨k + 1, by simpa using hk⟩
    · rintro ⟨k, hk⟩
      cases k with
      | zero => exact Or.inl (by simpa using hk)
      | succ k => exact Or.inr ⟨k, by simpa using hk⟩

theorem reAccept_escUnit_iff (c : Char) (R : List Char) (hc : c ≠ '*') :
    ∀ (s : List Char),
    (reAccept true (reFuel (escUnit c ++ R) s) (escUnit c ++ R) s = true ↔
      ∃ y t, s = y :: t ∧ charEqCI true c y = true ∧
        reAccept true (reFuel ('.' :: '*' :: R) t) ('.' :: '*' :: R) t = true) := by
  intro s
  by_cases hesc : isEscSetChar c = true
  · have he : escUnit c ++ R = '\\' :: c :: '.' :: '*' :: R := by
      simp [escUnit, hesc]
    rw [he, reFuel]
    simp only [reAccept]
    have hpa : parseAtom ('\\' :: c :: '.' :: '*' :: R) = some (some c, '.' :: '*' :: R) := rfl
    simp only [hpa]
    rw [if_neg (show ¬ ('.' :: '*' :: R).head? = some '*' by
      rw [show ('.' :: '*' :: R).head? = some '.' from rfl]
      intro h
      exact absurd (Option.some.inj h) (by decide))]
    cases s with
    | nil =>
      simp only [Bool.false_eq_true, false_iff]
      rintro ⟨y, t, hyt, -, -⟩
      exact List.noConfusion hyt
    | cons x s' =>
      show (atomMatches true (some c) x &&
          reAccept true (('\\' :: c :: '.' :: '*' :: R).length + (x :: s').length)
            ('.' :: '*' :: R) s') = true ↔ _
      rw [show atomMatches true (some c) x = charEqCI true c x from rfl]
      rw [reAccept_fuel_norm true ('.' :: '*' :: R) s'
        (('\\' :: c :: '.' :: '*' :: R).length + (x :: s').length)
        (by simp only [List.length_cons]; omega)]
      rw [Bool.and_eq_true]
      constructor
      · rintro ⟨h1, h2⟩
        exact ⟨x, s', rfl, h1, h2⟩
      · rintro ⟨y, t, hyt, h1, h2⟩
        injection hyt with he1 he2
        subst he1
        subst he2
        exact ⟨h1, h2⟩
  · have hesc' : isEscSetChar c = false := by
      revert hesc
      cases isEscSetChar c <;> simp
    have he : escUnit c ++ R = c :: '.' :: '*' :: R := by
      simp [escUnit, hesc']
    rw [he, reFuel]
    simp only [reAccept]
    have hcb : (c == '\\') = false := by
      apply beq_eq_false_iff_ne.mpr
      intro h
      rw [h] at hesc'
      exact absurd hesc' (by decide)
    have hcd : (c == '.') = false := by
      apply beq_eq_false_iff_ne.mpr
      intro h
      rw [h] at hesc'
      exact absurd hesc' (by decide)
    have hcs : (c == '*') = false := beq_eq_false_iff_ne.mpr hc
    have hpa : parseAtom (c :: '.' :: '*' :: R) = some (some c, '.' :: '*' :: R) := by
      rw [parseAtom.eq_def]
      simp only [hcb, hcd, hcs, Bool.false_eq_true, if_false]
    simp only [hpa]
    rw [if_neg (show ¬ ('.' :: '*' :: R).head? = some '*' by
      rw [show ('.' :: '*' :: R).head? = some '.' from rfl]
      intro h
      exact absurd (Option.some.inj h) (by decide))]
    cases s with
    | nil =>
      simp only [Bool.false_eq_true, false_iff]
      rintro ⟨y, t, hyt, -, -⟩
      exact List.noConfusion hyt
    | cons x s' =>
      show (atomMatches true (some c) x &&
          reAccept true ((c :: '.' :: '*' :: R).length + (x :: s').length)
            ('.' :: '*' :: R) s') = true ↔ _
      rw [show atomMatches true (some c) x = charEqCI true c x from rfl]
      rw [reAccept_fuel_norm true ('.' :: '*' :: R) s'
        ((c :: '.' :: '*' :: R).length + (x :: s').length)
        (by simp only [List.length_cons]; omega)]
      rw [Bool.and_eq_true]
      constructor
      · rintro ⟨h1, h2⟩
        exact ⟨x, s', rfl, h1, h2⟩
      · rintro ⟨y, t, hyt, h1, h2⟩
        injection hyt with he1 he2
        subst he1
        subst he2
        exact ⟨h1, h2⟩

theorem subseqCI_iff_sublist :
    ∀ (s p : List Char), subseqCI p s = true ↔
      List.Sublist (p.map Char.toLower) (s.map Char.toLower) := by
  intro s
  induction s with
  | nil =>
    intro p
    cases p with
    | nil => simp [subseqCI]
    | cons c p' => simp [subseqCI]
  | cons x s' ih =>
    intro p
    cases p with
    | nil => simp [subseqCI, List.nil_sublist]
    | cons c p' =>
      rw [subseqCI]
      simp only [List.map_cons]
      rw [List.sublist_cons_iff]
      by_cases hce : charEqCI true c x = true
      · rw [if_pos hce]
        have hlc : c.toLower = x.toLower := by
          simpa [charEqCI] using hce
        rw [ih p']
        constructor
        · intro h
          exact Or.inr ⟨p'.map Char.toLower, by rw [hlc], h⟩
        · rintro (h | ⟨r, hr, hrs⟩)
          · exact List.sublist_of_cons_sublist h
          · injection hr with h1 h2
            rw [h2]
            exact hrs
      · rw [if_neg hce]
        have hlc : ¬ c.toLower = x.toLower := by
          intro h
          apply hce
          simp [charEqCI, h]
        rw [ih (c :: p')]
        simp only [List.map_cons]
        constructor
        · intro h
          exact Or.inl h
        · rintro (h | ⟨r, hr, -⟩)
          · exact h
          · injection hr with h1 h2
            exact absurd h1 hlc

theorem subseqCI_cons_weaken (c : Char) (p s : List Char) :
    subseqCI (c :: p) s = true → subseqCI p s = true := by
  intro h
  rw [subseqCI_iff_sublist] at h ⊢
  rw [List.map_cons] at h
  exact List.sublist_of_cons_sublist h

theorem escFlat_subseq :
    ∀ (p : List Char), '*' ∉ p →
    ∀ (s : List Char), (∀ c ∈ s, isLineTerminator c = false) →
    ((∃ k, reAccept true (reFuel (escFlat p) (List.drop k s)) (escFlat p) (List.drop k s)
        = true) ↔
      subseqCI p s = true) := by
  intro p
  induction p with
  | nil =>
    intro _ s _
    constructor
    · intro _
      cases s <;> rfl
    · intro _
      exact ⟨0, rfl⟩
  | cons c p' ih =>
    intro hstar s
    have hc : c ≠ '*' := fun h => hstar (h ▸ List.mem_cons_self c p')
    have hp' : '*' ∉ p' := fun h => hstar (List.mem_cons_of_mem c h)
    have hef : escFlat (c :: p') = escUnit c ++ escFlat p' := by
      simp [escFlat, List.flatMap_cons]
    rw [hef]
    induction s with
    | nil =>
      intro _
      constructor
      · rintro ⟨k, hk⟩
        rw [List.drop_nil] at hk
        obtain ⟨y, t, hyt, -, -⟩ := (reAccept_escUnit_iff c (escFlat p') hc []).mp hk
        exact List.noConfusion hyt
      · intro h
        rw [subseqCI] at h
        exact Bool.noConfusion h
    | cons x s'' ihs =>
      intro hterm
      have hx : isLineTerminator x = false := hterm x (List.mem_cons_self x s'')
      have hs'' : ∀ u ∈ s'', isLineTerminator u = false :=
        fun u hu => hterm u (List.mem_cons_of_mem x hu)
      have iouter := ih hp' s'' hs''
      have hsplit : (∃ k, reAccept true
            (reFuel (escUnit c ++ escFlat p') (List.drop k (x :: s'')))
            (escUnit c ++ escFlat p') (List.drop k (x :: s'')) = true) ↔
          (reAccept true (reFuel (escUnit c ++ escFlat p') (x :: s''))
            (escUnit c ++ escFlat p') (x :: s'') = true ∨
           ∃ k, reAccept true (reFuel (escUnit c ++ escFlat p') (List.drop k s''))
            (escUnit c ++ escFlat p') (List.drop k s'') = true) := by
        constructor
        · rintro ⟨k, hk⟩
          cases k with
          | zero => exact Or.inl (by simpa using hk)
          | succ k => exact Or.inr ⟨k, by simpa using hk⟩
        · rintro (h | ⟨k, hk⟩)
          · exact ⟨0, by simpa using h⟩
          · exact ⟨k + 1, by simpa using hk⟩
      rw [hsplit]
      rw [reAccept_escUnit_iff c (escFlat p') hc (x :: s'')]
      have hhead : (∃ y t, x :: s'' = y :: t ∧ charEqCI true c y = true ∧
            reAccept true (reFuel ('.' :: '*' :: escFlat p') t) ('.' :: '*' :: escFlat p') t
              = true) ↔
          (charEqCI true c x = true ∧
            reAccept true (reFuel ('.' :: '*' :: escFlat p') s'')
              ('.' :: '*' :: escFlat p') s'' = true) := by
        constructor
        · rintro ⟨y, t, hyt, h1, h2⟩
          injection hyt with he1 he2
          subst he1
          subst he2
          exact ⟨h1, h2⟩
        · rintro ⟨h1, h2⟩
          exact ⟨x, s'', rfl, h1, h2⟩
      rw [hhead]
      rw [reAccept_dotstar_iff (escFlat p') s'' hs'']
      rw [iouter]
      rw [ihs hs'']
      rw [subseqCI]
      by_cases hce : charEqCI true c x = true
      · rw [if_pos hce]
        constructor
        · rintro (⟨-, h⟩ | h)
          · exact h
          · exact subseqCI_cons_weaken c p' s'' h
        · intro h
          exact Or.inl ⟨hce, h⟩
      · rw [if_neg hce]
        constructor
        · rintro (⟨h1, -⟩ | h)
          · exact absurd h1 hce
          · exact h
        · intro h
          exact Or.inr h

theorem reTest_iff_exists (ci : Bool) (re s : List Char) :
    reTest ci re s = true ↔
      ∃ k, reAccept ci (reFuel re (List.drop k s)) re (List.drop k s) = true := by
  rw [reTest, List.any_eq_true]
  constructor
  · rintro ⟨i, -, hi⟩
    exact ⟨i, hi⟩
  · rintro ⟨k, hk⟩
    by_cases hks : k ≤ s.length
    · exact ⟨k, List.mem_range.mpr (by omega), hk⟩
    · refine ⟨s.length, List.mem_range.mpr (by omega), ?_⟩
      have h1 : List.drop k s = [] := List.drop_eq_nil_of_le (by omega)
      have h2 : List.drop s.length s = [] := List.drop_eq_nil_of_le le_rfl
      rw [h2]
      rw [h1] at hk
      exact hk

/-- **C4 (counterexample).**  The claim says every literal character of the
pattern is escaped, so that `*` has no special meaning.  In the source the
final replace's capture set omits `*`: the pattern `a*b` compiles to
`a.*.*b.*` — the literal star is absorbed into the wildcard groups by the
collapse — while the claim's procedure yields `a.*\*.*b.*`.  Consequently
the source-compiled pattern accepts the path `ab`, which contains no `*`,
and the claim-compiled pattern rejects it. -/
theorem convert_star_collapsed :
    convertSimple2RegExpPattern "a*b" = "a.*.*b.*" ∧
      claimCompile "a*b" = "a.*\\*.*b.*" ∧
      fileSearchMatches "a*b" "ab" = true ∧
      claimFileSearchMatches "a*b" "ab" = false :=
  ⟨rfl, rfl, rfl, rfl⟩

/-- **C4 (amended).**  For a file-search pattern without `*` (on paths free
of line terminators, which `.` does not match), the compiled regex of
`convertSimple2RegExpPattern`, applied unanchored and case-insensitively as
`provideFileSearchResults` applies it, accepts a path exactly when the
pattern is a case-insensitive subsequence of it: every character is literal
(including `?`), with "anything in between" allowed.  A `*` in the pattern,
however, is not escaped: the collapse absorbs it into the adjacent wildcard
group, so it matches as `.*` rather than as a literal star. -/
theorem fileSearch_fuzzy_subsequence (p s : String)
    (hstar : '*' ∉ p.toList)
    (hterm : ∀ c ∈ s.toList, isLineTerminator c = false) :
    fileSearchMatches p s = true ↔
      List.Sublist (p.toList.map Char.toLower) (s.toList.map Char.toLower) := by
  rw [fileSearchMatches, reTest_iff_exists]
  by_cases hne : p.toList = []
  · have hc0 : (convertSimple2RegExpPattern p).toList = ['.', '*'] := by
      show escapeGo
          (collapseGo (joinDotStar p.toList).length (joinDotStar p.toList) ++ ['.', '*'])
        = ['.', '*']
      rw [hne]
      rfl
    rw [hc0, hne]
    constructor
    · intro _
      simp
    · intro _
      refine ⟨0, ?_⟩
      simp only [List.drop_zero]
      rw [reAccept_dotstar_iff [] s.toList hterm]
      exact ⟨0, by simp only [List.drop_zero]; rfl⟩
  · have hc4 : (convertSimple2RegExpPattern p).toList = escFlat p.toList :=
      convert_eq_escFlat p.toList hstar hne
    rw [hc4]
    rw [escFlat_subseq p.toList hstar s.toList hterm]
    exact subseqCI_iff_sublist s.toList p.toList

/-- Witness for the amended C4 theorem: the pattern `ft` against the path
`/a/foo.txt`. -/
theorem fileSearch_fuzzy_subsequence_witness :
    ('*' ∉ "ft".toList) ∧
      (∀ c ∈ "/a/foo.txt".toList, isLineTerminator c = false) ∧
      (fileSearchMatches "ft" "/a/foo.txt" = true ↔
        List.Sublist ("ft".toList.map Char.toLower)
          ("/a/foo.txt".toList.map Char.toLower)) :=
  ⟨by decide, by decide,
    fileSearch_fuzzy_subsequence "ft" "/a/foo.txt" (by decide) (by decide)⟩
